import Mathlib

/-!
Verification of the document-mutation engine in `src/tools/doc_mcp.py`
(knowledge-base "Doc Keeper" MCP tools): path validation, frontmatter
codec, outline indexing, section editing with the dual-lock check,
snapshot history and diffing.

The Python code is shallowly embedded: strings are Lean `String`s,
CPython string primitives (`str.strip`, `str.splitlines`, `str.split`,
substring `in`, ...) are modelled character-exactly for strings built
from characters below U+0080 (the non-ASCII line boundaries U+0085,
U+2028, U+2029 and non-ASCII whitespace are outside the model), and the
library calls the code makes (`yaml`, `difflib`, the filesystem) are
modelled explicitly next to their uses.  Stateful tool functions become
pure functions over an explicit state of the one document they touch.
-/

namespace DocMCP

/-- Models CPython `str.isspace` / regex `\s` for characters below
U+0080 (on that range the two sets coincide: HT, LF, VT, FF, CR,
FS, GS, RS, US and space). -/
def isPySpace (c : Char) : Bool :=
  c = ' ' || c = '\t' || c = '\n' || c = '\x0b' || c = '\x0c' || c = '\r' ||
  c = '\x1c' || c = '\x1d' || c = '\x1e' || c = '\x1f'

/-- Models the CPython line-boundary set of `str.splitlines` for
characters below U+0080: LF, VT, FF, CR, FS, GS, RS (CRLF is one
boundary, handled in `pySplitlines`). -/
def isLineBreak (c : Char) : Bool :=
  c = '\n' || c = '\r' || c = '\x0b' || c = '\x0c' ||
  c = '\x1c' || c = '\x1d' || c = '\x1e'

/-- Strips `isPySpace` characters from both ends: models `str.strip()`. -/
def pyStripList (l : List Char) : List Char :=
  ((l.dropWhile isPySpace).reverse.dropWhile isPySpace).reverse

/-- Models `str.strip()` (no arguments). -/
def pyStrip (s : String) : String :=
  String.mk (pyStripList s.toList)

/-- Models `str.lower()` (ASCII case folding). -/
def pyLower (s : String) : String :=
  String.mk (s.toList.map Char.toLower)

/-- Decides whether `needle` occurs as a contiguous run inside `hay`. -/
def listIsInfix (needle : List Char) : List Char → Bool
  | [] => needle.isPrefixOf []
  | c :: rest => needle.isPrefixOf (c :: rest) || listIsInfix needle rest

/-- Models the Python substring test `needle in hay`. -/
def pyIn (needle hay : String) : Bool :=
  listIsInfix needle.toList hay.toList

/-- Models `s.startswith(pre)`. -/
def pyStartsWith (pre s : String) : Bool :=
  pre.toList.isPrefixOf s.toList

/-- Models `s.endswith("\n")`. -/
def endsWithLF (s : String) : Bool :=
  s.toList.getLast? = some '\n'

/-- Worker for `pySplitlines`; `acc` holds the current line reversed
(CRLF is one boundary, any other break character one of its own). -/
def splitlinesGo : List Char → List Char → List String
  | [], acc => if acc.isEmpty then [] else [String.mk acc.reverse]
  | c :: rest, acc =>
    if c = '\r' then
      match rest with
      | '\n' :: rest2 => String.mk acc.reverse :: splitlinesGo rest2 []
      | [] => String.mk acc.reverse :: splitlinesGo [] []
      | c2 :: rest2 => String.mk acc.reverse :: splitlinesGo (c2 :: rest2) []
    else if isLineBreak c then String.mk acc.reverse :: splitlinesGo rest []
    else splitlinesGo rest (c :: acc)

/-- Models `str.splitlines()` (no terminators kept). -/
def pySplitlines (s : String) : List String :=
  splitlinesGo s.toList []

/-- Worker for `readLines`; splits after every LF, keeping it. -/
def readLinesGo : List Char → List Char → List String
  | [], acc => if acc.isEmpty then [] else [String.mk acc.reverse]
  | c :: rest, acc =>
    if c = '\n' then String.mk ('\n' :: acc).reverse :: readLinesGo rest []
    else readLinesGo rest (c :: acc)

/-- Models `file.readlines()` on an (already newline-translated) text:
split after every LF, line terminators kept. -/
def readLines (s : String) : List String :=
  readLinesGo s.toList []

/-- Worker for `pyReadText` (CRLF and lone CR both become LF). -/
def pyReadTextList : List Char → List Char
  | [] => []
  | c :: rest =>
    if c = '\r' then
      match rest with
      | '\n' :: rest2 => '\n' :: pyReadTextList rest2
      | [] => '\n' :: pyReadTextList []
      | c2 :: rest2 => '\n' :: pyReadTextList (c2 :: rest2)
    else c :: pyReadTextList rest

/-- Models universal-newline translation of `open(path, "r").read()`
on a POSIX system: CRLF and lone CR on disk become LF in memory. -/
def pyReadText (s : String) : String :=
  String.mk (pyReadTextList s.toList)

/-! ## Outline indexing (`_get_outline_tree`, lines 132-166) -/

/-- Models `re.match(r'^(#{1,6})\s+(.+)$', line.strip())`, returning
`(level, title)` with `title = match.group(2).strip()`.  A match needs
a maximal run of 1-6 `#`, then at least one `\s`, then a nonempty
remainder (`.` never matches a line boundary, and the line holds none). -/
def parseHeading (line : String) : Option (Nat × String) :=
  let s := pyStripList line.toList
  let hashes := s.takeWhile (fun c => c = '#')
  let rest := s.dropWhile (fun c => c = '#')
  if hashes.length = 0 || 6 < hashes.length then none
  else
    match rest with
    | [] => none
    | c :: tl =>
      if isPySpace c then
        let body := (c :: tl).dropWhile isPySpace
        if body.isEmpty then none
        else some (hashes.length, pyStrip (String.mk body))
      else none

/-- Models `counters[level] += 1` followed by
`for j in range(level + 1, 7): counters[j] = 0`. -/
def updateCounters (cs : List Nat) (level : Nat) : List Nat :=
  (cs.set level (cs.getD level 0 + 1)).take (level + 1) ++
    List.replicate (cs.length - (level + 1)) 0

/-- Models `".".join(str(c) for c in counters[1:level+1])`. -/
def joinIds (cs : List Nat) (level : Nat) : String :=
  String.intercalate "." (((cs.drop 1).take level).map (fun c => toString c))

/-- One markdown heading as produced by `_get_outline_tree`:
`line_start` is the 1-based line number `i + 1` stored by the code. -/
structure OutlineNode where
  id : String
  title : String
  level : Nat
  line_start : Nat
  deriving Repr, DecidableEq

/-- Worker of `_get_outline_tree`: the enumerated-line loop with the
per-level counter list (`counters = [0] * 7`). -/
def outlineGo : List (Nat × String) → List Nat → List OutlineNode
  | [], _ => []
  | (i, line) :: rest, cs =>
    match parseHeading line with
    | none => outlineGo rest cs
    | some (level, title) =>
      let cs' := updateCounters cs level
      ⟨joinIds cs' level, title, level, i + 1⟩ :: outlineGo rest cs'

/-- Models `_get_outline_tree(content)`. -/
def _get_outline_tree (content : String) : List OutlineNode :=
  outlineGo (pySplitlines content).enum (List.replicate 7 0)

/-! ## Section editing (`update_knowledge_section`, lines 327-423)

The non-APPEND path re-scans the lines with the same counter logic as
`_get_outline_tree`, locating `update_start` (first heading whose id is
`node_id`, after the dual-lock check) and `update_end` (next heading of
level at most the target's), then splices `new_content` in. -/

/-- Loop state of the locating scan: `counters`, `target_found`,
`current_level`, `update_start` (the `-1` sentinel is `none`; whenever
`targetFound` is set, `updateStart` is set too, so the sentinel is never
consumed). -/
structure ScanState where
  counters : List Nat
  targetFound : Bool
  currentLevel : Nat
  updateStart : Option Nat
  deriving Repr, DecidableEq

/-- Outcome of the locating scan: either the early `return` on a failed
dual-lock check (carrying the actual title found), or the loop ran to
its end or `break`, with final state and `update_end` (`none` for the
`-1` sentinel, meaning end of document). -/
inductive ScanOutcome where
  | mismatch (title : String)
  | finished (st : ScanState) (updateEnd : Option Nat)
  deriving Repr, DecidableEq

/-- The dual-lock check of line 392:
`expected_title.lower().strip() in title.lower().strip()` (`true` means
the lock passes). -/
def lockOk (expected title : String) : Bool :=
  pyIn (pyStrip (pyLower expected)) (pyStrip (pyLower title))

/-- Models the `for i, line in enumerate(lines)` loop of
`update_knowledge_section` (lines 370-397). -/
def scanLoop (nodeId expected : String) :
    List (Nat × String) → ScanState → ScanOutcome
  | [], st => .finished st none
  | (i, line) :: rest, st =>
    match parseHeading line with
    | none => scanLoop nodeId expected rest st
    | some (level, title) =>
      if st.targetFound && decide (level ≤ st.currentLevel) then
        .finished st (some i)
      else
        let cs' := updateCounters st.counters level
        let currentId := joinIds cs' level
        if currentId = nodeId then
          if lockOk expected title then
            scanLoop nodeId expected rest ⟨cs', true, level, some i⟩
          else
            .mismatch title
        else
          scanLoop nodeId expected rest { st with counters := cs' }

/-- Result of the pure (content-level) part of
`update_knowledge_section` on a dotted node id; constructors mirror the
returned message strings (the lock-mismatch message interpolates
`node_id`, the actual `title` and `expected_title`; the not-found
message interpolates `node_id`). -/
inductive EditResult where
  | lockMismatch (nodeId title expected : String)
  | sectionNotFound (nodeId : String)
  | updated (finalContent : String)
  deriving Repr, DecidableEq

/-- Models steps 4-5 of `update_knowledge_section` (lines 359-417): the
locating scan, the `SectionNotFound` return, and the splice with the
trailing-newline restoration. -/
def sectionEdit (content nodeId expected newContent : String) : EditResult :=
  let lines := pySplitlines content
  match scanLoop nodeId expected lines.enum ⟨List.replicate 7 0, false, 0, none⟩ with
  | .mismatch title => .lockMismatch nodeId title expected
  | .finished st updateEnd =>
    if st.targetFound then
      let ustart := st.updateStart.getD 0
      let uend := updateEnd.getD lines.length
      let newLines := pySplitlines newContent
      let base := String.intercalate "\n" (lines.take ustart ++ newLines ++ lines.drop uend)
      let finalContent :=
        if endsWithLF content && !(endsWithLF base) then base ++ "\n" else base
      .updated finalContent
    else .sectionNotFound nodeId

/-! ## Frontmatter codec (`_parse_frontmatter` / `_build_frontmatter`)

The `yaml` library is modelled for the shape the code writes and reads:
a flat mapping from plain scalar string keys to plain scalar string
values, one `key: value` line per entry, in insertion order
(`sort_keys=False`).  PyYAML quotes a value when the plain form would
re-resolve to another type (for example date-like strings); since a
quoted value loads back to the same string, the model composes dump and
load the way the real library does on this domain and leaves the
quoting out. -/

/-- Models `yaml.dump(meta, allow_unicode=True, sort_keys=False)` on a
flat string-to-string mapping: one `key: value` line per entry,
insertion order kept. -/
def yamlDump (meta : List (String × String)) : String :=
  String.join (meta.map (fun kv => kv.1 ++ ": " ++ kv.2 ++ "\n"))

/-- Parses one `key: value` line (first colon separates; the value is
stripped, as PyYAML does for plain scalars). Blank lines give `none`. -/
def parseYamlLine (line : String) : Option (String × String) :=
  let l := line.toList
  if (pyStripList l).isEmpty then none
  else
    let key := l.takeWhile (fun c => c ≠ ':')
    let rest := l.dropWhile (fun c => c ≠ ':')
    match rest with
    | [] => none
    | _ :: v => some (String.mk (pyStripList key), String.mk (pyStripList v))

/-- Models `yaml.safe_load` on the flat-mapping domain above. -/
def yamlSafeLoad (s : String) : List (String × String) :=
  (pySplitlines s).filterMap parseYamlLine

/-- Models the first-occurrence split step of `content.split(sep, ...)`:
`none` when `sep` does not occur. `sep` is nonempty at every use. -/
def splitFirst (sep : List Char) : List Char → Option (List Char × List Char)
  | [] => if sep.isEmpty then some ([], []) else none
  | c :: rest =>
    if sep.isPrefixOf (c :: rest) then some ([], (c :: rest).drop sep.length)
    else (splitFirst sep rest).map (fun p => (c :: p.1, p.2))

/-- Models `content.split(sep, 2)` (at most three parts). -/
def pySplit2 (sep s : String) : List String :=
  match splitFirst sep.toList s.toList with
  | none => [s]
  | some (a, b) =>
    match splitFirst sep.toList b with
    | none => [String.mk a, String.mk b]
    | some (c, d) => [String.mk a, String.mk c, String.mk d]

/-- Models `_parse_frontmatter(content)` (lines 65-77): the returned
pair is `(meta, body)`. -/
def _parse_frontmatter (content : String) : List (String × String) × String :=
  if pyStartsWith "---" content then
    let parts := pySplit2 "---" content
    if 3 ≤ parts.length then
      (yamlSafeLoad (parts.getD 1 ""), parts.getD 2 "")
    else ([], content)
  else ([], content)

/-- Models `_build_frontmatter(meta)` (lines 79-86); `today` stands for
`datetime.now().strftime("%Y-%m-%d")`. -/
def _build_frontmatter (today : String) (meta : List (String × String)) : String :=
  let meta :=
    if meta.any (fun kv => kv.1 = "last_updated") then meta
    else meta ++ [("last_updated", today)]
  let yamlStr := pyStrip (yamlDump meta)
  "---\n" ++ yamlStr ++ "\n---\n"

/-! ## Path validation (`_validate_path`, lines 31-46)

`KNOWLEDGE_ROOT` is `"."`; the code compares `os.path.abspath` results
as strings.  Absolute POSIX paths are modelled as their segment lists:
the working directory (the knowledge root) is a parameter `cwd`, and
`os.path.abspath(os.path.join(".", clean))` is segment normalization of
`cwd ++ ["."] ++ clean.split("/")` (on POSIX the backslash is an
ordinary character; leading slashes and backslashes were already
stripped from `clean`, so the joined path is relative). -/

/-- Worker for `splitSlash`. -/
def splitSlashGo : List Char → List Char → List String
  | [], acc => [String.mk acc.reverse]
  | c :: rest, acc =>
    if c = '/' then String.mk acc.reverse :: splitSlashGo rest []
    else splitSlashGo rest (c :: acc)

/-- Models `s.split("/")` (empty parts kept, result never empty). -/
def splitSlash (s : String) : List String :=
  splitSlashGo s.toList []

/-- One step of `posixpath.normpath` segment processing: empty and `.`
segments vanish, `..` pops (and vanishes at the root, as for an
absolute path). -/
def normStep (acc : List String) (seg : String) : List String :=
  if seg = "" || seg = "." then acc
  else if seg = ".." then acc.dropLast
  else acc ++ [seg]

/-- Models `posixpath.normpath` segment processing for absolute paths. -/
def normSegs (segs : List String) : List String :=
  segs.foldl normStep []

/-- The clean path `_validate_path` derives before checking:
`path.strip().lstrip("/\\")`. -/
def cleanOf (path : String) : String :=
  String.mk ((pyStrip path).toList.dropWhile (fun c => c = '/' || c = '\\'))

/-- Renders an absolute path from its segments. -/
def absStr (segs : List String) : String :=
  "/" ++ String.intercalate "/" segs

/-- Outcome of `_validate_path`: `traversal` is the `ValueError` for a
`..` occurrence (the `PathTraversal` failure), `outOfBounds` the
`ValueError` of the `startswith` guard, `ok` carries the absolute
target path. -/
inductive PathResult where
  | traversal (cleanPath : String)
  | outOfBounds (cleanPath : String)
  | ok (absTarget : String)
  deriving Repr, DecidableEq

/-- Models `_validate_path(path)` with the knowledge root mounted at
the absolute directory `cwd` (segment list). -/
def _validate_path (cwd : List String) (path : String) : PathResult :=
  let clean := cleanOf path
  if pyIn ".." clean then .traversal clean
  else
    let absRoot := absStr cwd
    let absTarget := absStr (normSegs (cwd ++ ["."] ++ splitSlash clean))
    if pyStartsWith absRoot absTarget then .ok absTarget
    else .outOfBounds clean

/-! ## Snapshot history and diffing

`_create_snapshot` copies the document's current bytes into its history
directory under a second-granularity timestamp name (`shutil.copy2`
overwrites a same-named snapshot); `view_doc_changes` diffs the
lexicographically largest snapshot name against the current content.
Timestamps are modelled as naturals (the fixed-width `%Y%m%d_%H%M%S`
names sort like their numeric values). -/

/-- State of one document: its on-disk bytes (absent before creation),
its history stream as timestamped snapshots, and the current clock. -/
structure DocFS where
  file : Option String
  snaps : List (Nat × String)
  now : Nat
  deriving Repr, DecidableEq

/-- Models writing `{timestamp}.snap` into the history directory: a
same-named snapshot is overwritten, otherwise the file is added. -/
def snapInsert (t : Nat) (raw : String) (snaps : List (Nat × String)) :
    List (Nat × String) :=
  snaps.filter (fun p => p.1 ≠ t) ++ [(t, raw)]

/-- The snapshot with the lexicographically largest name
(`sorted(...)[-1]`). -/
def latestSnap (snaps : List (Nat × String)) : Option (Nat × String) :=
  snaps.foldl
    (fun best p =>
      match best with
      | none => some p
      | some q => if q.1 ≤ p.1 then some p else some q)
    none

/-! ## Model of `difflib.unified_diff`

`view_doc_changes` calls
`difflib.unified_diff(old_lines, new_lines, fromfile, tofile, lineterm="")`
and joins the generator with `""`.  The matcher is modelled without the
junk machinery: no junk argument is passed, and `autojunk` only acts on
sequences of at least 200 lines, outside this model's stated domain.
`SequenceMatcher.find_longest_match` is specified by its contract: the
longest matching block in the windows, earliest in `a`, then earliest
in `b`; the model computes it by direct search. -/

/-- Length of the common run at the heads of two lists. -/
def commonRun : List String → List String → Nat
  | x :: xs, y :: ys => if x = y then commonRun xs ys + 1 else 0
  | _, _ => 0

/-- Length of the matching run at `a[i:ahi]` vs `b[j:bhi]`. -/
def matchLenAt (a b : List String) (ahi bhi i j : Nat) : Nat :=
  commonRun ((a.take ahi).drop i) ((b.take bhi).drop j)

/-- Models `find_longest_match(alo, ahi, blo, bhi)` junk-free: the
longest matching block, earliest in `a`, then earliest in `b`. -/
def bestMatch (a b : List String) (alo ahi blo bhi : Nat) : Nat × Nat × Nat :=
  (List.range' alo (ahi - alo)).foldl
    (fun best i =>
      (List.range' blo (bhi - blo)).foldl
        (fun best j =>
          let k := matchLenAt a b ahi bhi i j
          if best.2.2 < k then (i, j, k) else best)
        best)
    (alo, blo, 0)

/-- Models the recursive block collection of `get_matching_blocks`
(fuel-driven; the initial fuel below always suffices). -/
def matchingBlocksFuel (a b : List String) :
    Nat → Nat → Nat → Nat → Nat → List (Nat × Nat × Nat)
  | 0, _, _, _, _ => []
  | fuel + 1, alo, ahi, blo, bhi =>
    let m := bestMatch a b alo ahi blo bhi
    if m.2.2 = 0 then []
    else
      matchingBlocksFuel a b fuel alo m.1 blo m.2.1 ++
        m :: matchingBlocksFuel a b fuel (m.1 + m.2.2) ahi (m.2.1 + m.2.2) bhi

/-- Models the adjacent-block merge at the end of
`get_matching_blocks`; `acc` is the `(i1, j1, k1)` accumulator. -/
def mergeBlocks : List (Nat × Nat × Nat) → Nat × Nat × Nat → List (Nat × Nat × Nat)
  | [], acc => if acc.2.2 ≠ 0 then [acc] else []
  | (i2, j2, k2) :: rest, (i1, j1, k1) =>
    if i1 + k1 = i2 && j1 + k1 = j2 then mergeBlocks rest (i1, j1, k1 + k2)
    else
      (if k1 ≠ 0 then [(i1, j1, k1)] else []) ++ mergeBlocks rest (i2, j2, k2)

/-- Models `get_matching_blocks()`: collected blocks, merged, with the
`(len(a), len(b), 0)` sentinel appended. -/
def getMatchingBlocks (a b : List String) : List (Nat × Nat × Nat) :=
  mergeBlocks (matchingBlocksFuel a b (a.length + b.length + 1) 0 a.length 0 b.length)
      (0, 0, 0) ++ [(a.length, b.length, 0)]

/-- Opcode tags of `get_opcodes()`. -/
inductive Tag where
  | replace
  | delete
  | insert
  | equal
  deriving Repr, DecidableEq

/-- One `(tag, i1, i2, j1, j2)` opcode. -/
structure Opcode where
  tag : Tag
  a1 : Nat
  a2 : Nat
  b1 : Nat
  b2 : Nat
  deriving Repr, DecidableEq

/-- Models the loop of `get_opcodes()` over the matching blocks. -/
def opGo : Nat → Nat → List (Nat × Nat × Nat) → List Opcode
  | _, _, [] => []
  | i, j, (ai, bj, k) :: rest =>
    (if i < ai && j < bj then [⟨.replace, i, ai, j, bj⟩]
     else if i < ai then [⟨.delete, i, ai, j, bj⟩]
     else if j < bj then [⟨.insert, i, ai, j, bj⟩]
     else []) ++
    (if k ≠ 0 then [⟨.equal, ai, ai + k, bj, bj + k⟩] else []) ++
    opGo (ai + k) (bj + k) rest

/-- Models `get_opcodes()`. -/
def getOpcodes (a b : List String) : List Opcode :=
  opGo 0 0 (getMatchingBlocks a b)

/-- Context trim of a leading `equal` opcode in `get_grouped_opcodes`. -/
def trimHead (n : Nat) : List Opcode → List Opcode
  | [] => []
  | c :: rest =>
    if c.tag = Tag.equal then
      ⟨c.tag, max c.a1 (c.a2 - n), c.a2, max c.b1 (c.b2 - n), c.b2⟩ :: rest
    else c :: rest

/-- Context trim of a trailing `equal` opcode in `get_grouped_opcodes`. -/
def trimLast (n : Nat) (codes : List Opcode) : List Opcode :=
  match codes.getLast? with
  | none => []
  | some c =>
    if c.tag = Tag.equal then
      codes.dropLast ++ [⟨c.tag, c.a1, min c.a2 (c.a1 + n), c.b1, min c.b2 (c.b1 + n)⟩]
    else codes

/-- Grouping loop of `get_grouped_opcodes`: splits at large `equal`
gaps, suppressing a final all-context group. -/
def groupGo (n : Nat) : List Opcode → List Opcode → List (List Opcode)
  | [], group =>
    if !group.isEmpty &&
        !(group.length = 1 && (group.headD ⟨.equal, 0, 0, 0, 0⟩).tag = Tag.equal) then
      [group]
    else []
  | c :: rest, group =>
    if c.tag = Tag.equal && 2 * n < c.a2 - c.a1 then
      (group ++ [⟨c.tag, c.a1, min c.a2 (c.a1 + n), c.b1, min c.b2 (c.b1 + n)⟩]) ::
        groupGo n rest [⟨c.tag, max c.a1 (c.a2 - n), c.a2, max c.b1 (c.b2 - n), c.b2⟩]
    else groupGo n rest (group ++ [c])

/-- Models `get_grouped_opcodes(n)` (the default `n = 3` is used). -/
def groupedOpcodes (n : Nat) (a b : List String) : List (List Opcode) :=
  let codes := getOpcodes a b
  let codes := if codes.isEmpty then [⟨Tag.equal, 0, 1, 0, 1⟩] else codes
  groupGo n (trimLast n (trimHead n codes)) []

/-- Models `_format_range_unified(start, stop)`. -/
def formatRangeUnified (start stop : Nat) : String :=
  let beginning := start + 1
  let length := stop - start
  if length = 1 then toString beginning
  else toString (if length = 0 then beginning - 1 else beginning) ++ "," ++ toString length

/-- The slice `xs[i:j]`. -/
def slice (xs : List String) (i j : Nat) : List String :=
  (xs.take j).drop i

/-- Renders one group of `unified_diff` (with `lineterm=""`). -/
def renderGroup (a b : List String) (g : List Opcode) : String :=
  let first := g.headD ⟨Tag.equal, 0, 0, 0, 0⟩
  let last := g.getLastD ⟨Tag.equal, 0, 0, 0, 0⟩
  "@@ -" ++ formatRangeUnified first.a1 last.a2 ++
    " +" ++ formatRangeUnified first.b1 last.b2 ++ " @@" ++
    String.join (g.map (fun c =>
      if c.tag = Tag.equal then
        String.join ((slice a c.a1 c.a2).map (fun line => " " ++ line))
      else
        (if c.tag = Tag.replace || c.tag = Tag.delete then
          String.join ((slice a c.a1 c.a2).map (fun line => "-" ++ line))
        else "") ++
        (if c.tag = Tag.replace || c.tag = Tag.insert then
          String.join ((slice b c.b1 c.b2).map (fun line => "+" ++ line))
        else "")))

/-- Models `"".join(difflib.unified_diff(a, b, fromfile, tofile,
lineterm=""))`. -/
def unifiedDiff (a b : List String) (fromfile tofile : String) : String :=
  match groupedOpcodes 3 a b with
  | [] => ""
  | groups =>
    "--- " ++ fromfile ++ "+++ " ++ tofile ++
      String.join (groups.map (renderGroup a b))

/-! ## The stateful tools on one document

`update_knowledge_section` and `view_doc_changes` are modelled against
a `DocFS` holding the one (already path-resolved, in-root) document
they touch; `_smart_resolve_path` and `_validate_path` are modelled
separately above. -/

/-- Outcome of `update_knowledge_section` as seen by the caller. -/
inductive UpdateOutcome where
  | notExists
  | appended
  | lockMismatch (title : String)
  | sectionNotFound
  | updated (finalContent : String)
  deriving Repr, DecidableEq

/-- Models `update_knowledge_section(path, node_id, expected_title,
new_content)` (lines 327-423) on the resolved document: snapshot first,
then read, then the APPEND branch or the locating scan and splice. -/
def update_knowledge_section (fs : DocFS) (nodeId expected newContent : String) :
    DocFS × UpdateOutcome :=
  match fs.file with
  | none => (fs, .notExists)
  | some raw =>
    let fs1 : DocFS := { fs with snaps := snapInsert fs.now raw fs.snaps }
    let content := pyReadText raw
    if nodeId = "APPEND" then
      ({ fs1 with file := some (raw ++ "\n\n" ++ newContent) }, .appended)
    else
      match sectionEdit content nodeId expected newContent with
      | .lockMismatch _ title _ => (fs1, .lockMismatch title)
      | .sectionNotFound _ => (fs1, .sectionNotFound)
      | .updated finalContent =>
        ({ fs1 with file := some finalContent }, .updated finalContent)

/-- Outcome of `view_doc_changes`: the no-history message, a failure to
read a missing document, or the joined unified diff. -/
inductive ViewOutcome where
  | noHistory
  | readFailed
  | diff (text : String)
  deriving Repr, DecidableEq

/-- Models `view_doc_changes(path)` (lines 425-455) on the resolved
document: latest snapshot (by name) against current content, read with
`readlines()`, joined `unified_diff` with `lineterm=""`. -/
def view_doc_changes (fs : DocFS) : ViewOutcome :=
  match latestSnap fs.snaps with
  | none => .noHistory
  | some (t, snapRaw) =>
    match fs.file with
    | none => .readFailed
    | some raw =>
      .diff (unifiedDiff (readLines (pyReadText snapRaw)) (readLines (pyReadText raw))
        ("snapshot(" ++ toString t ++ ".snap)") "current")

/-! ## Specification-side definitions

The definitions below restate, in the specification's own words, the
addressing and output shapes that the claims attribute to the code;
the theorems compare them against the model above. -/

/-- Well-formed mounting directory for the knowledge root: a normalized
absolute directory (plain segments only). -/
def cwdOk (cwd : List String) : Bool :=
  !cwd.isEmpty && cwd.all (fun seg => seg ≠ "" && seg ≠ "." && seg ≠ "..")

/-- First line index (from `es`, which carries absolute indices) whose
line is a heading of level at most `L`: where the target section ends. -/
def findBreak (L : Nat) (es : List (Nat × String)) : Option Nat :=
  (es.find? (fun p =>
    match parseHeading p.2 with
    | some (l, _) => decide (l ≤ L)
    | none => false)).map (fun p => p.1)

/-- The exclusive end of the section starting at line `s` with heading
level `L`: the next heading of level at most `L`, or end of document. -/
def targetRangeEnd (lines : List String) (s L : Nat) : Nat :=
  match findBreak L (lines.enum.drop (s + 1)) with
  | some i => i
  | none => lines.length

/-- The spliced document content the specification describes: the
LF-join of the split lines with `[s, e)` replaced by `new_content`'s
lines, with a trailing LF restored when the original content ended with
one and the join does not. -/
def spliceContent (content : String) (s e : Nat) (newContent : String) : String :=
  let lines := pySplitlines content
  let base := String.intercalate "\n" (lines.take s ++ pySplitlines newContent ++ lines.drop e)
  if endsWithLF content && !(endsWithLF base) then base ++ "\n" else base

/-- The heading-line shape the specification states: the line begins
with 1-6 `#` characters followed by whitespace and non-empty text. -/
def beginsWithHeading (line : String) : Bool :=
  (List.range 6).any (fun k0 =>
    let k := k0 + 1
    let l := line.toList
    decide (l.take k = List.replicate k '#') &&
      (match l.drop k with
       | [] => false
       | c :: rest => isPySpace c && !(((c :: rest).dropWhile isPySpace).isEmpty)))

/-- The per-level counter update the specification states: the counter
at the heading's level increments, all deeper counters reset to zero. -/
def specBump (c : Nat → Nat) (level : Nat) : Nat → Nat :=
  fun j => if j = level then c level + 1 else if level < j then 0 else c j

/-- The id the specification states: the dot-joined counters from
level 1 through the heading's level. -/
def specId (c : Nat → Nat) (level : Nat) : String :=
  String.intercalate "." ((List.range level).map (fun k => toString (c (k + 1))))

/-- Ids assigned to a sequence of heading levels by the specification's
counter discipline. -/
def specIds : List Nat → (Nat → Nat) → List String
  | [], _ => []
  | l :: ls, c =>
    let c2 := specBump c l
    specId c2 l :: specIds ls c2

/-- Well-formedness of one metadata entry within the modelled flat
string mapping domain: nonempty colon-free stripped key, nonempty
stripped value, no line-boundary characters. -/
def metaEntryOk (kv : String × String) : Bool :=
  !kv.1.toList.isEmpty && !kv.2.toList.isEmpty &&
    kv.1.toList.all (fun c => !isLineBreak c && c ≠ ':') &&
    kv.2.toList.all (fun c => !isLineBreak c) &&
    decide (pyStrip kv.1 = kv.1) && decide (pyStrip kv.2 = kv.2)

/-- Well-formedness of a metadata mapping (entrywise). -/
def metaOk (meta : List (String × String)) : Bool :=
  meta.all metaEntryOk

/-- Helper for reasoning about `String.intercalate`: the separated tail
of an intercalation. -/
def joinSep (s : String) : List String → String
  | [] => ""
  | a :: as => s ++ a ++ joinSep s as

/-- The characters of one dumped metadata line (without its newline). -/
def lineChars (kv : String × String) : List Char :=
  kv.1.toList ++ ':' :: ' ' :: kv.2.toList

/-- A matching block `(i, j, k)` really matches: `a[i:i+k] = b[j:j+k]`. -/
def blockOk (a b : List String) (blk : Nat × Nat × Nat) : Prop :=
  (a.drop blk.1).take blk.2.2 = (b.drop blk.2.1).take blk.2.2

/-- The blocks advance monotonically from `(i, j)` and stay within
`(hi1, hi2)`: the traversal invariant of `get_opcodes`. -/
def blocksChain : Nat → Nat → Nat → Nat → List (Nat × Nat × Nat) → Prop
  | _, _, _, _, [] => True
  | i, j, hi1, hi2, (ai, bj, k) :: rest =>
    i ≤ ai ∧ j ≤ bj ∧ ai + k ≤ hi1 ∧ bj + k ≤ hi2 ∧
      blocksChain (ai + k) (bj + k) hi1 hi2 rest

end DocMCP

namespace DocMCP

/-! ## Lemmas about the locating scan -/

theorem parseHeading_level_bounds {line : String} {level : Nat} {title : String}
    (h : parseHeading line = some (level, title)) : 1 ≤ level ∧ level ≤ 6 := by
  simp only [parseHeading] at h
  split at h
  · exact absurd h (by simp)
  · rename_i hlen
    split at h
    · exact absurd h (by simp)
    · split at h
      · split at h
        · exact absurd h (by simp)
        · simp only [Option.some.injEq, Prod.mk.injEq] at h
          obtain ⟨h1, -⟩ := h
          subst h1
          simp only [Bool.or_eq_true, decide_eq_true_eq, not_or] at hlen
          omega
      · exact absurd h (by simp)

theorem updateCounters_length {cs : List Nat} {level : Nat} (h : level < cs.length) :
    (updateCounters cs level).length = cs.length := by
  simp [updateCounters]
  omega

theorem comps_take_updateCounters {cs : List Nat} {level L : Nat}
    (h1 : L < level) (h2 : level < cs.length) :
    ((updateCounters cs level).drop 1).take L = (cs.drop 1).take L := by
  apply List.ext_getElem?
  intro i
  simp only [updateCounters, List.getElem?_take, List.getElem?_drop]
  by_cases hi : i < L
  · simp only [hi, if_pos]
    rw [List.getElem?_append_left, List.getElem?_take, if_pos (by omega),
      List.getElem?_set_ne (by omega)]
    simp [List.length_take, List.length_set]
    omega
  · simp [hi]

theorem joinIds_updateCounters_low {cs : List Nat} {level L : Nat}
    (h1 : L < level) (h2 : level < cs.length) :
    joinIds (updateCounters cs level) L = joinIds cs L := by
  simp only [joinIds, comps_take_updateCounters h1 h2]

theorem intercalate_go_eq (s : String) (l : List String) :
    ∀ acc : String, String.intercalate.go acc s l = acc ++ joinSep s l := by
  induction l with
  | nil => intro acc; simp [String.intercalate.go, joinSep]
  | cons a as ih =>
    intro acc
    simp only [String.intercalate.go, joinSep, ih (acc ++ s ++ a)]
    simp [String.append_assoc]

theorem intercalate_eq_joinSep (s a : String) (as : List String) :
    String.intercalate s (a :: as) = a ++ joinSep s as := by
  simp only [String.intercalate, intercalate_go_eq]

theorem joinSep_append (s : String) (xs ys : List String) :
    joinSep s (xs ++ ys) = joinSep s xs ++ joinSep s ys := by
  induction xs with
  | nil => simp [joinSep]
  | cons a as ih => simp [joinSep, ih, String.append_assoc]

theorem intercalate_append_split (s : String) (a b : String) (as bs : List String) :
    String.intercalate s ((a :: as) ++ (b :: bs)) =
      String.intercalate s (a :: as) ++ s ++ String.intercalate s (b :: bs) := by
  simp only [List.cons_append, intercalate_eq_joinSep, joinSep_append]
  simp [joinSep, String.append_assoc]

theorem joinIds_extend {cs : List Nat} {level L : Nat}
    (h0 : 1 ≤ L) (h1 : L < level) (h2 : level < cs.length) :
    ∃ tail : String, joinIds cs level = joinIds cs L ++ "." ++ tail := by
  have hsplit : (cs.drop 1).take level =
      (cs.drop 1).take L ++ ((cs.drop 1).drop L).take (level - L) := by
    rw [← List.take_add]
    congr 1
    omega
  have hlen1 : ((cs.drop 1).take L).length = L := by
    simp [List.length_take, List.length_drop]
    omega
  have hlen2 : (((cs.drop 1).drop L).take (level - L)).length = level - L := by
    simp [List.length_take, List.length_drop]
    omega
  obtain ⟨x, xs, hx⟩ : ∃ x xs, (cs.drop 1).take L = x :: xs := by
    cases hcs : (cs.drop 1).take L with
    | nil => rw [hcs] at hlen1; simp at hlen1; omega
    | cons x xs => exact ⟨x, xs, rfl⟩
  obtain ⟨y, ys, hy⟩ : ∃ y ys, ((cs.drop 1).drop L).take (level - L) = y :: ys := by
    cases hcs : ((cs.drop 1).drop L).take (level - L) with
    | nil => rw [hcs] at hlen2; simp at hlen2; omega
    | cons y ys => exact ⟨y, ys, rfl⟩
  refine ⟨String.intercalate "." ((y :: ys).map (fun c => toString c)), ?_⟩
  simp only [joinIds, hsplit, hx, hy, List.map_append, List.map_cons]
  exact intercalate_append_split "." _ _ _ _

theorem findBreak_nil (L : Nat) : findBreak L [] = none := by
  simp [findBreak]

theorem findBreak_cons_skip {L i : Nat} {line : String} {rest : List (Nat × String)}
    (h : parseHeading line = none) :
    findBreak L ((i, line) :: rest) = findBreak L rest := by
  simp only [findBreak]
  rw [List.find?_cons_of_neg]
  simp [h]

theorem findBreak_cons_deep {L i level : Nat} {line title : String}
    {rest : List (Nat × String)}
    (h : parseHeading line = some (level, title)) (hl : ¬level ≤ L) :
    findBreak L ((i, line) :: rest) = findBreak L rest := by
  simp only [findBreak]
  rw [List.find?_cons_of_neg]
  simp [h, hl]

theorem findBreak_cons_hit {L i level : Nat} {line title : String}
    {rest : List (Nat × String)}
    (h : parseHeading line = some (level, title)) (hl : level ≤ L) :
    findBreak L ((i, line) :: rest) = some i := by
  simp only [findBreak]
  rw [List.find?_cons_of_pos]
  · rfl
  · simp [h, hl]

theorem joinIds_deep_ne {cs : List Nat} {level L : Nat} {nodeId : String}
    (hL : 1 ≤ L) (h1 : L < level) (h2 : level < cs.length)
    (hid : joinIds cs L = nodeId) :
    joinIds (updateCounters cs level) level ≠ nodeId := by
  have hlen : (updateCounters cs level).length = cs.length := updateCounters_length h2
  obtain ⟨tail, htail⟩ := joinIds_extend hL h1 (by omega : level < (updateCounters cs level).length)
  rw [htail, joinIds_updateCounters_low h1 h2, hid]
  intro hcontra
  have hlc := congrArg String.length hcontra
  simp only [String.length_append] at hlc
  have hdot : (".").length = 1 := rfl
  omega

theorem scanLoop_post (nodeId expected : String) :
    ∀ (es : List (Nat × String)) (cs : List Nat) (L s : Nat),
      1 ≤ L → cs.length = 7 → joinIds cs L = nodeId →
      ∃ cs', scanLoop nodeId expected es ⟨cs, true, L, some s⟩ =
          .finished ⟨cs', true, L, some s⟩ (findBreak L es) ∧ cs'.length = 7 := by
  intro es
  induction es with
  | nil =>
    intro cs L s _ hlen _
    exact ⟨cs, by simp [scanLoop, findBreak_nil], hlen⟩
  | cons p rest ih =>
    intro cs L s hL hlen hid
    obtain ⟨i, line⟩ := p
    match hph : parseHeading line with
    | none =>
      obtain ⟨cs', h1, h2⟩ := ih cs L s hL hlen hid
      refine ⟨cs', ?_, h2⟩
      simp only [scanLoop, hph]
      rw [h1, findBreak_cons_skip hph]
    | some (level, title) =>
      by_cases hlev : level ≤ L
      · refine ⟨cs, ?_, hlen⟩
        simp only [scanLoop, hph]
        rw [if_pos (by simp [hlev]), findBreak_cons_hit hph hlev]
      · have hb := parseHeading_level_bounds hph
        have hlevlt : level < cs.length := by omega
        have hne : ¬(joinIds (updateCounters cs level) level = nodeId) :=
          joinIds_deep_ne hL (by omega) hlevlt hid
        have hid2 : joinIds (updateCounters cs level) L = nodeId := by
          rw [joinIds_updateCounters_low (by omega) hlevlt, hid]
        obtain ⟨cs', h1, h2⟩ :=
          ih (updateCounters cs level) L s hL (by rw [updateCounters_length hlevlt, hlen]) hid2
        refine ⟨cs', ?_, h2⟩
        simp only [scanLoop, hph]
        rw [if_neg (by simp [hlev])]
        simp only [if_neg hne]
        rw [h1, findBreak_cons_deep hph hlev]

theorem scanLoop_notFound (nodeId expected : String) :
    ∀ (es : List (Nat × String)) (cs : List Nat) (l0 : Nat),
      cs.length = 7 →
      (outlineGo es cs).find? (fun nd => nd.id == nodeId) = none →
      ∃ cs', scanLoop nodeId expected es ⟨cs, false, l0, none⟩ =
          .finished ⟨cs', false, l0, none⟩ none := by
  intro es
  induction es with
  | nil =>
    intro cs l0 _ _
    exact ⟨cs, by simp [scanLoop]⟩
  | cons p rest ih =>
    intro cs l0 hlen hfind
    obtain ⟨i, line⟩ := p
    match hph : parseHeading line with
    | none =>
      simp only [outlineGo, hph] at hfind
      obtain ⟨cs', h1⟩ := ih cs l0 hlen hfind
      exact ⟨cs', by simp only [scanLoop, hph]; exact h1⟩
    | some (level, title) =>
      simp only [outlineGo, hph] at hfind
      by_cases hp : joinIds (updateCounters cs level) level = nodeId
      · rw [List.find?_cons_of_pos _ (by simp [hp])] at hfind
        exact absurd hfind (by simp)
      · rw [List.find?_cons_of_neg _ (by simp [hp])] at hfind
        have hb := parseHeading_level_bounds hph
        obtain ⟨cs', h1⟩ :=
          ih (updateCounters cs level) l0
            (by rw [updateCounters_length (by omega)]; exact hlen) hfind
        refine ⟨cs', ?_⟩
        simp only [scanLoop, hph]
        rw [if_neg (by simp)]
        simp only [if_neg hp]
        exact h1

theorem scanLoop_mismatch (nodeId expected : String) :
    ∀ (es : List (Nat × String)) (cs : List Nat) (l0 : Nat) (n : OutlineNode),
      cs.length = 7 →
      (outlineGo es cs).find? (fun nd => nd.id == nodeId) = some n →
      lockOk expected n.title = false →
      scanLoop nodeId expected es ⟨cs, false, l0, none⟩ = .mismatch n.title := by
  intro es
  induction es with
  | nil =>
    intro cs l0 n _ hfind _
    simp [outlineGo] at hfind
  | cons p rest ih =>
    intro cs l0 n hlen hfind hlock
    obtain ⟨i, line⟩ := p
    match hph : parseHeading line with
    | none =>
      simp only [outlineGo, hph] at hfind
      simpa only [scanLoop, hph] using ih cs l0 n hlen hfind hlock
    | some (level, title) =>
      simp only [outlineGo, hph] at hfind
      by_cases hp : joinIds (updateCounters cs level) level = nodeId
      · rw [List.find?_cons_of_pos _ (by simp [hp])] at hfind
        simp only [Option.some.injEq] at hfind
        subst hfind
        simp only [scanLoop, hph]
        rw [if_neg (by simp)]
        simp only [if_pos hp]
        rw [if_neg (by simp [hlock])]
      · rw [List.find?_cons_of_neg _ (by simp [hp])] at hfind
        have hb := parseHeading_level_bounds hph
        have := ih (updateCounters cs level) l0 n
          (by rw [updateCounters_length (by omega)]; exact hlen) hfind hlock
        simp only [scanLoop, hph]
        rw [if_neg (by simp)]
        simp only [if_neg hp]
        exact this

theorem scanLoop_found (nodeId expected : String) :
    ∀ (es : List (Nat × String)) (cs : List Nat) (l0 : Nat) (n : OutlineNode),
      cs.length = 7 →
      (outlineGo es cs).find? (fun nd => nd.id == nodeId) = some n →
      lockOk expected n.title = true →
      ∃ es₁ lineN es₂ cs',
        es = es₁ ++ (n.line_start - 1, lineN) :: es₂ ∧
        scanLoop nodeId expected es ⟨cs, false, l0, none⟩ =
          .finished ⟨cs', true, n.level, some (n.line_start - 1)⟩
            (findBreak n.level es₂) := by
  intro es
  induction es with
  | nil =>
    intro cs l0 n _ hfind _
    simp [outlineGo] at hfind
  | cons p rest ih =>
    intro cs l0 n hlen hfind hlock
    obtain ⟨i, line⟩ := p
    match hph : parseHeading line with
    | none =>
      simp only [outlineGo, hph] at hfind
      obtain ⟨es₁, lineN, es₂, cs', hdec, hrun⟩ := ih cs l0 n hlen hfind hlock
      refine ⟨(i, line) :: es₁, lineN, es₂, cs', by rw [hdec]; rfl, ?_⟩
      simp only [scanLoop, hph]
      exact hrun
    | some (level, title) =>
      simp only [outlineGo, hph] at hfind
      by_cases hp : joinIds (updateCounters cs level) level = nodeId
      · rw [List.find?_cons_of_pos _ (by simp [hp])] at hfind
        simp only [Option.some.injEq] at hfind
        subst hfind
        have hb := parseHeading_level_bounds hph
        obtain ⟨cs', hrun, -⟩ :=
          scanLoop_post nodeId expected rest (updateCounters cs level) level i
            (by omega) (by rw [updateCounters_length (by omega)]; exact hlen) hp
        refine ⟨[], line, rest, cs', by simp, ?_⟩
        simp only [scanLoop, hph]
        rw [if_neg (by simp)]
        simp only [if_pos hp]
        rw [if_pos hlock]
        simpa using hrun
      · rw [List.find?_cons_of_neg _ (by simp [hp])] at hfind
        have hb := parseHeading_level_bounds hph
        obtain ⟨es₁, lineN, es₂, cs', hdec, hrun⟩ :=
          ih (updateCounters cs level) l0 n
            (by rw [updateCounters_length (by omega)]; exact hlen) hfind hlock
        refine ⟨(i, line) :: es₁, lineN, es₂, cs', by rw [hdec]; rfl, ?_⟩
        simp only [scanLoop, hph]
        rw [if_neg (by simp)]
        simp only [if_neg hp]
        exact hrun

/-! ## Characterization of `sectionEdit` -/

theorem sectionEdit_notFound_of (content nodeId expected newContent : String)
    (h : (_get_outline_tree content).find? (fun nd => nd.id == nodeId) = none) :
    sectionEdit content nodeId expected newContent = .sectionNotFound nodeId := by
  simp only [_get_outline_tree] at h
  obtain ⟨cs', hrun⟩ :=
    scanLoop_notFound nodeId expected (pySplitlines content).enum (List.replicate 7 0) 0
      (by simp) h
  simp only [sectionEdit]
  rw [hrun]
  simp

theorem sectionEdit_lockMismatch_of (content nodeId expected newContent : String)
    (n : OutlineNode)
    (h : (_get_outline_tree content).find? (fun nd => nd.id == nodeId) = some n)
    (hlock : lockOk expected n.title = false) :
    sectionEdit content nodeId expected newContent =
      .lockMismatch nodeId n.title expected := by
  simp only [_get_outline_tree] at h
  have hrun :=
    scanLoop_mismatch nodeId expected (pySplitlines content).enum (List.replicate 7 0) 0 n
      (by simp) h hlock
  simp only [sectionEdit]
  rw [hrun]

theorem sectionEdit_updated_of (content nodeId expected newContent : String)
    (n : OutlineNode)
    (h : (_get_outline_tree content).find? (fun nd => nd.id == nodeId) = some n)
    (hlock : lockOk expected n.title = true) :
    sectionEdit content nodeId expected newContent =
      .updated (spliceContent content (n.line_start - 1)
        (targetRangeEnd (pySplitlines content) (n.line_start - 1) n.level) newContent) := by
  simp only [_get_outline_tree] at h
  obtain ⟨es₁, lineN, es₂, cs', hdec, hrun⟩ :=
    scanLoop_found nodeId expected (pySplitlines content).enum (List.replicate 7 0) 0 n
      (by simp) h hlock
  have hlen₁ : es₁.length = n.line_start - 1 := by
    have hget : ((pySplitlines content).enum)[es₁.length]? = some (n.line_start - 1, lineN) := by
      rw [hdec, List.getElem?_append_right (Nat.le_refl _)]
      simp
    rw [List.getElem?_enum] at hget
    cases hl : (pySplitlines content)[es₁.length]? with
    | none => rw [hl] at hget; simp at hget
    | some x =>
      rw [hl] at hget
      simp at hget
      exact hget.1
  have hes₂ : es₂ = ((pySplitlines content).enum).drop (n.line_start - 1 + 1) := by
    have : (pySplitlines content).enum = (es₁ ++ [(n.line_start - 1, lineN)]) ++ es₂ := by
      rw [hdec]; simp
    rw [this, List.drop_left' (by simp [hlen₁])]
  simp only [sectionEdit]
  rw [hrun]
  simp only [Option.getD_some, spliceContent, targetRangeEnd, ← hes₂]
  cases hfb : findBreak n.level es₂ with
  | none => simp
  | some e => simp

/-! ## The empty-expected-title lock -/

theorem listIsInfix_nil_left (hay : List Char) : listIsInfix [] hay = true := by
  cases hay <;> simp [listIsInfix, List.isPrefixOf]

theorem toLower_of_isPySpace {c : Char} (h : isPySpace c = true) : c.toLower = c := by
  simp only [isPySpace, Bool.or_eq_true, decide_eq_true_eq] at h
  rcases h with ((((((((h | h) | h) | h) | h) | h) | h) | h) | h) | h <;> subst h <;> decide

theorem all_isPySpace_of_strip_nil {l : List Char} (h : pyStripList l = []) :
    ∀ c ∈ l, isPySpace c = true := by
  simp only [pyStripList, List.reverse_eq_nil_iff, List.dropWhile_eq_nil_iff,
    List.mem_reverse] at h
  intro c hc
  have hsplit := List.takeWhile_append_dropWhile (p := isPySpace) (l := l)
  rw [← hsplit] at hc
  rcases List.mem_append.mp hc with hc | hc
  · exact List.mem_takeWhile_imp hc
  · exact h c hc

theorem lockOk_of_strip_empty {expected : String} (h : pyStrip expected = "") :
    ∀ title : String, lockOk expected title = true := by
  intro title
  have hnil : pyStripList expected.toList = [] := by
    have := congrArg String.toList h
    simpa [pyStrip] using this
  have hall := all_isPySpace_of_strip_nil hnil
  have hmap : expected.toList.map Char.toLower = expected.toList := by
    rw [List.map_congr_left (fun c hc => toLower_of_isPySpace (hall c hc))]
    simp
  have hlow : pyLower expected = expected := by
    simp only [pyLower, hmap]
    rfl
  simp only [lockOk, hlow, h, pyIn]
  exact listIsInfix_nil_left _

/-! ## Claim theorems on the section editor -/

/-- C1: when a dotted `node_id` resolves to a heading and the caller's
`expected_title` (lower-cased, trimmed) is not a substring of that
heading's title (lower-cased, trimmed), `update_knowledge_section`
fails with the lock-mismatch message reporting the actual title found
and the document's content is unchanged. -/
theorem C1_lockMismatch_reports_title_file_unchanged
    (fs : DocFS) (raw nodeId expected newContent : String) (n : OutlineNode)
    (hfile : fs.file = some raw)
    (happend : nodeId ≠ "APPEND")
    (hfind : (_get_outline_tree (pyReadText raw)).find? (fun nd => nd.id == nodeId) = some n)
    (hlock : lockOk expected n.title = false) :
    (update_knowledge_section fs nodeId expected newContent).2 = .lockMismatch n.title ∧
    (update_knowledge_section fs nodeId expected newContent).1.file = fs.file := by
  have hedit :=
    sectionEdit_lockMismatch_of (pyReadText raw) nodeId expected newContent n hfind hlock
  simp only [update_knowledge_section, hfile]
  rw [if_neg happend, hedit]
  exact ⟨rfl, rfl⟩

/-- Witness for C1 at a concrete document. -/
theorem C1_lockMismatch_reports_title_file_unchanged_witness :
    (update_knowledge_section ⟨some "# A\nx\n", [], 0⟩ "1" "other" "new").2 =
      .lockMismatch "A" ∧
    (update_knowledge_section ⟨some "# A\nx\n", [], 0⟩ "1" "other" "new").1.file =
      some "# A\nx\n" :=
  C1_lockMismatch_reports_title_file_unchanged
    ⟨some "# A\nx\n", [], 0⟩ "# A\nx\n" "1" "other" "new" ⟨"1", "A", 1, 1⟩
    rfl (by decide) (by decide) (by decide)

/-- C2: `update_knowledge_section` on a dotted id either fails with the
section-not-found message (when no heading's computed id equals
`node_id`), or, on the first heading whose computed id equals `node_id`
(dual lock passing), rewrites the document to the splice of the range
from that heading's line up to (excluding) the next heading of level at
most the target's, or end of document. -/
theorem C2_replaces_exact_range_or_sectionNotFound
    (content nodeId expected newContent : String) :
    ((∀ nd ∈ _get_outline_tree content, nd.id ≠ nodeId) →
      sectionEdit content nodeId expected newContent = .sectionNotFound nodeId) ∧
    (∀ n : OutlineNode,
      (_get_outline_tree content).find? (fun nd => nd.id == nodeId) = some n →
      lockOk expected n.title = true →
      sectionEdit content nodeId expected newContent =
        .updated (spliceContent content (n.line_start - 1)
          (targetRangeEnd (pySplitlines content) (n.line_start - 1) n.level) newContent)) := by
  constructor
  · intro hall
    apply sectionEdit_notFound_of
    rw [List.find?_eq_none]
    intro nd hmem
    simp [hall nd hmem]
  · intro n hf hl
    exact sectionEdit_updated_of content nodeId expected newContent n hf hl

/-- Witness for C2: a missing id fails, a present id splices. -/
theorem C2_replaces_exact_range_or_sectionNotFound_witness :
    sectionEdit "# A\nx\n" "9" "A" "new" = .sectionNotFound "9" ∧
    sectionEdit "# A\nx\n# B\ny\n" "1" "a" "# A\nz" =
      .updated (spliceContent "# A\nx\n# B\ny\n" 0
        (targetRangeEnd (pySplitlines "# A\nx\n# B\ny\n") 0 1) "# A\nz") :=
  ⟨(C2_replaces_exact_range_or_sectionNotFound "# A\nx\n" "9" "A" "new").1 (by decide),
   (C2_replaces_exact_range_or_sectionNotFound "# A\nx\n# B\ny\n" "1" "a" "# A\nz").2
     ⟨"1", "A", 1, 1⟩ (by decide) (by decide)⟩

/-- C10: an `expected_title` whose trimmed form is empty passes the
dual-lock check against every heading title, so the lock-mismatch
failure is impossible and the mutation proceeds whenever `node_id`
resolves. -/
theorem C10_empty_expected_never_lockMismatch
    (content nodeId expected newContent : String)
    (hempty : pyStrip expected = "") :
    (∀ a b c : String,
      sectionEdit content nodeId expected newContent ≠ .lockMismatch a b c) ∧
    (∀ n : OutlineNode,
      (_get_outline_tree content).find? (fun nd => nd.id == nodeId) = some n →
      sectionEdit content nodeId expected newContent =
        .updated (spliceContent content (n.line_start - 1)
          (targetRangeEnd (pySplitlines content) (n.line_start - 1) n.level) newContent)) := by
  have hlock := lockOk_of_strip_empty hempty
  constructor
  · intro a b c hcontra
    cases hf : (_get_outline_tree content).find? (fun nd => nd.id == nodeId) with
    | none =>
      rw [sectionEdit_notFound_of content nodeId expected newContent
        (by exact hf)] at hcontra
      exact absurd hcontra (by simp)
    | some n =>
      rw [sectionEdit_updated_of content nodeId expected newContent n hf (hlock n.title)]
        at hcontra
      exact absurd hcontra (by simp)
  · intro n hf
    exact sectionEdit_updated_of content nodeId expected newContent n hf (hlock n.title)

/-- Witness for C10 at a concrete document and whitespace title. -/
theorem C10_empty_expected_never_lockMismatch_witness :
    sectionEdit "# A\nx\n" "1" "  " "new" ≠ .lockMismatch "p" "q" "r" ∧
    sectionEdit "# A\nx\n" "1" "  " "new" =
      .updated (spliceContent "# A\nx\n" 0
        (targetRangeEnd (pySplitlines "# A\nx\n") 0 1) "new") :=
  ⟨(C10_empty_expected_never_lockMismatch "# A\nx\n" "1" "  " "new" (by decide)).1 "p" "q" "r",
   (C10_empty_expected_never_lockMismatch "# A\nx\n" "1" "  " "new" (by decide)).2
     ⟨"1", "A", 1, 1⟩ (by decide)⟩

/-! ## The outline indexer against the specification's counter rules -/

theorem updateCounters_getD {cs : List Nat} {level j : Nat}
    (hlev : level < cs.length) (hj : j < cs.length) :
    (updateCounters cs level).getD j 0 =
      if j = level then cs.getD level 0 + 1
      else if level < j then 0 else cs.getD j 0 := by
  simp only [updateCounters, List.getD_eq_getElem?_getD]
  rcases Nat.lt_trichotomy j level with hcmp | hcmp | hcmp
  · rw [List.getElem?_append_left (by simp [List.length_take, List.length_set]; omega),
      List.getElem?_take_of_lt (by omega), List.getElem?_set_ne (by omega),
      if_neg (by omega), if_neg (by omega)]
  · subst hcmp
    rw [List.getElem?_append_left (by simp [List.length_take, List.length_set]; omega),
      List.getElem?_take_of_lt (by omega), List.getElem?_set_self hj]
    simp
  · rw [List.getElem?_append_right (by simp [List.length_take, List.length_set]; omega),
      if_neg (by omega), if_pos hcmp]
    have hrep : (List.replicate (cs.length - (level + 1)) (0 : Nat))[j -
        (List.take (level + 1) (cs.set level ((cs[level]?).getD 0 + 1))).length]? =
        some 0 := by
      rw [List.getElem?_replicate_of_lt]
      simp [List.length_take, List.length_set]
      omega
    rw [hrep]
    rfl

theorem comps_updateCounters_getD {cs : List Nat} {c : Nat → Nat} {level : Nat}
    (hlen : cs.length = 7) (hlev1 : 1 ≤ level) (hlev6 : level ≤ 6)
    (hinv : ∀ j, 1 ≤ j → j ≤ 6 → cs.getD j 0 = c j) :
    ∀ j, 1 ≤ j → j ≤ 6 → (updateCounters cs level).getD j 0 = specBump c level j := by
  intro j h1 h6
  rw [updateCounters_getD (by omega) (by omega), specBump]
  by_cases he : j = level
  · subst he
    rw [if_pos rfl, if_pos rfl, hinv j h1 h6]
  · rw [if_neg he, if_neg he]
    by_cases hlt : level < j
    · rw [if_pos hlt, if_pos hlt]
    · rw [if_neg hlt, if_neg hlt, hinv j h1 h6]

theorem joinIds_eq_specId {cs : List Nat} {c : Nat → Nat} {level : Nat}
    (hlen : cs.length = 7) (hlev1 : 1 ≤ level) (hlev6 : level ≤ 6)
    (hinv : ∀ j, 1 ≤ j → j ≤ 6 → cs.getD j 0 = c j) :
    joinIds cs level = specId c level := by
  simp only [joinIds, specId]
  congr 1
  apply List.ext_getElem?
  intro k
  by_cases hk : k < level
  · rw [List.getElem?_map, List.getElem?_take_of_lt hk, List.getElem?_drop,
      List.getElem?_map, List.getElem?_range hk]
    have hsome : cs[1 + k]? = some (cs.getD (1 + k) 0) := by
      rw [List.getD_eq_getElem?_getD, List.getElem?_eq_getElem (by omega)]
      simp
    rw [hsome, hinv (1 + k) (by omega) (by omega), show 1 + k = k + 1 by omega]
    rfl
  · have h1 : ((((cs.drop 1).take level).map (fun v => toString v)))[k]? = none := by
      rw [List.getElem?_eq_none]
      simp only [List.length_map, List.length_take, List.length_drop]
      omega
    have h2 : (((List.range level).map (fun j => toString (c (j + 1)))))[k]? = none := by
      rw [List.getElem?_eq_none]
      simp only [List.length_map, List.length_range]
      omega
    rw [h1, h2]

theorem outlineGo_ids_spec :
    ∀ (es : List (Nat × String)) (cs : List Nat) (c : Nat → Nat),
      cs.length = 7 → (∀ j, 1 ≤ j → j ≤ 6 → cs.getD j 0 = c j) →
      (outlineGo es cs).map (fun nd => nd.id) =
        specIds ((outlineGo es cs).map (fun nd => nd.level)) c := by
  intro es
  induction es with
  | nil => intro cs c _ _; simp [outlineGo, specIds]
  | cons p rest ih =>
    intro cs c hlen hinv
    obtain ⟨i, line⟩ := p
    match hph : parseHeading line with
    | none =>
      simp only [outlineGo, hph]
      exact ih cs c hlen hinv
    | some (level, title) =>
      have hb := parseHeading_level_bounds hph
      simp only [outlineGo, hph, List.map_cons, specIds]
      have hinv2 := comps_updateCounters_getD hlen hb.1 hb.2 hinv
      have hlen2 : (updateCounters cs level).length = 7 := by
        rw [updateCounters_length (by omega), hlen]
      rw [joinIds_eq_specId hlen2 hb.1 hb.2 hinv2,
        ih (updateCounters cs level) (specBump c level) hlen2 hinv2]

/-- C5: outline ids come from per-level counters (increment at the
heading's level, deeper levels reset, id is the dot-join of counters
for levels 1 through the heading's level), and the document
`# A / ## B / ## C / ### D` receives ids 1, 1.1, 1.2, 1.2.1. -/
theorem C5_ids_from_per_level_counters :
    (∀ content : String,
      (_get_outline_tree content).map (fun nd => nd.id) =
        specIds ((_get_outline_tree content).map (fun nd => nd.level)) (fun _ => 0)) ∧
    (_get_outline_tree "# A\n## B\n## C\n### D").map (fun nd => nd.id) =
      ["1", "1.1", "1.2", "1.2.1"] := by
  constructor
  · intro content
    exact outlineGo_ids_spec (pySplitlines content).enum (List.replicate 7 0) (fun _ => 0)
      (by simp)
      (by
        intro j _ _
        rw [List.getD_eq_getElem?_getD, List.getElem?_replicate]
        split <;> rfl)
  · decide

/-! ## The heading-line shape -/

theorem takeWhile_dropWhile_replicate_stop {p : Char → Bool} {a c : Char}
    {rest : List Char} (k : Nat) (ha : p a = true) (hc : p c = false) :
    (List.replicate k a ++ c :: rest).takeWhile p = List.replicate k a ∧
    (List.replicate k a ++ c :: rest).dropWhile p = c :: rest := by
  induction k with
  | zero => simp [List.takeWhile, List.dropWhile, hc]
  | succ m ih =>
    simp only [List.replicate_succ, List.cons_append, List.takeWhile_cons, ha,
      List.dropWhile_cons, if_true]
    exact ⟨by rw [ih.1], by rw [ih.2]⟩

theorem parseHeading_some_pieces {line : String} {level : Nat} {title : String}
    (h : parseHeading line = some (level, title)) :
    ∃ c rest,
      (pyStripList line.toList).takeWhile (fun ch => ch = '#') =
        List.replicate level '#' ∧
      1 ≤ level ∧ level ≤ 6 ∧
      (pyStripList line.toList).dropWhile (fun ch => ch = '#') = c :: rest ∧
      isPySpace c = true ∧
      ((c :: rest).dropWhile isPySpace).isEmpty = false := by
  simp only [parseHeading] at h
  split at h
  · exact absurd h (by simp)
  · rename_i hlen
    split at h
    · exact absurd h (by simp)
    · rename_i c tl hcons
      split at h
      · rename_i hspace
        split at h
        · exact absurd h (by simp)
        · rename_i hbody
          simp only [Option.some.injEq, Prod.mk.injEq] at h
          obtain ⟨hlev, -⟩ := h
          simp only [Bool.or_eq_true, decide_eq_true_eq, not_or] at hlen
          refine ⟨c, tl, ?_, by omega, by omega, hcons, hspace, by simpa using hbody⟩
          apply (List.eq_replicate_iff).mpr
          refine ⟨by rw [← hlev], ?_⟩
          intro b hb2
          have := List.mem_takeWhile_imp hb2
          simpa using this
      · exact absurd h (by simp)

theorem parseHeading_isSome_of_pieces {line : String} {c : Char} {rest : List Char}
    {k : Nat} (h1 : 1 ≤ k) (h2 : k ≤ 6)
    (htake : (pyStripList line.toList).take k = List.replicate k '#')
    (hdrop : (pyStripList line.toList).drop k = c :: rest)
    (hspace : isPySpace c = true)
    (hbody : ((c :: rest).dropWhile isPySpace).isEmpty = false) :
    (parseHeading line).isSome = true := by
  have hcne : (fun ch : Char => decide (ch = '#')) c = false := by
    simp only [decide_eq_false_iff_not]
    intro hceq
    subst hceq
    exact absurd hspace (by decide)
  have hs : pyStripList line.toList = List.replicate k '#' ++ c :: rest := by
    conv_lhs => rw [← List.take_append_drop k (pyStripList line.toList)]
    rw [htake, hdrop]
  obtain ⟨htw, hdw⟩ :=
    @takeWhile_dropWhile_replicate_stop (fun ch => decide (ch = '#'))
      '#' c rest k (by simp) hcne
  simp only [parseHeading, hs, htw, hdw]
  rw [if_neg (by simp [List.length_replicate]; omega), if_pos hspace,
    if_neg (by simpa using hbody)]
  simp

theorem parseHeading_isSome_iff (line : String) :
    (parseHeading line).isSome = true ↔ beginsWithHeading (pyStrip line) = true := by
  have hlist : (pyStrip line).toList = pyStripList line.toList := rfl
  constructor
  · intro h
    obtain ⟨level, title, hph⟩ : ∃ l t, parseHeading line = some (l, t) := by
      match hph2 : parseHeading line with
      | none => rw [hph2] at h; simp at h
      | some (l, t) => exact ⟨l, t, rfl⟩
    obtain ⟨c, rest, htw, h1, h6, hdw, hsp, hbody⟩ := parseHeading_some_pieces hph
    simp only [beginsWithHeading, List.any_eq_true]
    refine ⟨level - 1, by simp [List.mem_range]; omega, ?_⟩
    have hk : level - 1 + 1 = level := by omega
    rw [hk, hlist]
    have hsplit := List.takeWhile_append_dropWhile
      (p := fun ch : Char => decide (ch = '#')) (l := pyStripList line.toList)
    have htake : (pyStripList line.toList).take level = List.replicate level '#' := by
      conv_lhs => rw [← hsplit]
      rw [List.take_left' (by rw [htw]; simp)]
      exact htw
    have hdrop : (pyStripList line.toList).drop level = c :: rest := by
      conv_lhs => rw [← hsplit]
      rw [List.drop_left' (by rw [htw]; simp)]
      exact hdw
    rw [htake, hdrop]
    simp only [Bool.and_eq_true, decide_eq_true_eq, Bool.not_eq_eq_eq_not, Bool.not_true]
    exact ⟨trivial, hsp, hbody⟩
  · intro h
    simp only [beginsWithHeading, List.any_eq_true] at h
    obtain ⟨k0, hk0, hcond⟩ := h
    rw [hlist] at hcond
    simp only [Bool.and_eq_true, decide_eq_true_eq] at hcond
    obtain ⟨htake, hmatch⟩ := hcond
    match hdrop : (pyStripList line.toList).drop (k0 + 1) with
    | [] => rw [hdrop] at hmatch; simp at hmatch
    | c :: rest =>
      rw [hdrop] at hmatch
      simp only [Bool.and_eq_true, Bool.not_eq_eq_eq_not, Bool.not_true] at hmatch
      obtain ⟨hspace, hbody⟩ := hmatch
      simp only [List.mem_range] at hk0
      exact parseHeading_isSome_of_pieces (by omega) (by omega) htake hdrop hspace hbody

theorem outlineGo_line_starts :
    ∀ (es : List (Nat × String)) (cs : List Nat),
      (outlineGo es cs).map (fun nd => nd.line_start) =
        (es.filter (fun p => (parseHeading p.2).isSome)).map (fun p => p.1 + 1) := by
  intro es
  induction es with
  | nil => intro cs; simp [outlineGo]
  | cons p rest ih =>
    intro cs
    obtain ⟨i, line⟩ := p
    match hph : parseHeading line with
    | none =>
      simp only [outlineGo, hph]
      rw [List.filter_cons_of_neg (by simp [hph])]
      exact ih cs
    | some (level, title) =>
      simp only [outlineGo, hph, List.map_cons]
      rw [List.filter_cons_of_pos (by simp [hph])]
      simp only [List.map_cons]
      exact List.cons_eq_cons.mpr ⟨rfl, ih (updateCounters cs level)⟩

/-- C6 counterexample: the line `" # A"` does not begin with `#`
(the claim's shape puts the `#` run first), yet the outline builder
produces a node for it, because the code matches against the stripped
line. -/
theorem C6_counterexample_leading_whitespace :
    (_get_outline_tree " # A").map (fun nd => nd.line_start) = [1] ∧
    beginsWithHeading " # A" = false := by decide

/-- C6 (amended): the outline builder produces a node for a line if and
only if the line's whitespace-trimmed form begins with 1-6 `#`
characters followed by whitespace and non-empty text. -/
theorem C6_node_iff_trimmed_heading_shape (content : String) :
    (_get_outline_tree content).map (fun nd => nd.line_start) =
      ((pySplitlines content).enum.filter
        (fun p => beginsWithHeading (pyStrip p.2))).map (fun p => p.1 + 1) := by
  rw [_get_outline_tree, outlineGo_line_starts]
  congr 1
  apply List.filter_congr
  intro p _
  have hiff := parseHeading_isSome_iff p.2
  cases hb : beginsWithHeading (pyStrip p.2) with
  | false =>
    cases hp : (parseHeading p.2).isSome with
    | false => rfl
    | true =>
      rw [hiff.mp hp] at hb
      exact absurd hb (by simp)
  | true => rw [hiff.mpr hb]

/-! ## Snapshot-before-checks (frame effect of failed updates) -/

/-- C8: `update_knowledge_section` snapshots the existing document
before the section search and the dual-lock check run, so a call that
fails with the lock-mismatch or section-not-found outcome still appends
a snapshot of the unchanged content to the history stream (timestamp
assumed fresh, as the names carry second granularity). -/
theorem C8_failed_update_still_snapshots
    (fs : DocFS) (raw nodeId expected newContent : String)
    (hfile : fs.file = some raw)
    (hfresh : ∀ p ∈ fs.snaps, p.1 ≠ fs.now) :
    (update_knowledge_section fs nodeId expected newContent).1.snaps =
      fs.snaps ++ [(fs.now, raw)] ∧
    (∀ t, (update_knowledge_section fs nodeId expected newContent).2 = .lockMismatch t →
      (update_knowledge_section fs nodeId expected newContent).1.file = fs.file) ∧
    ((update_knowledge_section fs nodeId expected newContent).2 = .sectionNotFound →
      (update_knowledge_section fs nodeId expected newContent).1.file = fs.file) := by
  have hsnap : snapInsert fs.now raw fs.snaps = fs.snaps ++ [(fs.now, raw)] := by
    simp only [snapInsert]
    rw [List.filter_eq_self.mpr (fun p hp => by simpa using hfresh p hp)]
  simp only [update_knowledge_section, hfile]
  by_cases happ : nodeId = "APPEND"
  · rw [if_pos happ]
    exact ⟨hsnap, fun t h => absurd h (by simp), fun h => absurd h (by simp)⟩
  · rw [if_neg happ]
    cases hedit : sectionEdit (pyReadText raw) nodeId expected newContent with
    | lockMismatch a b c => exact ⟨hsnap, fun t _ => rfl, fun _ => rfl⟩
    | sectionNotFound a => exact ⟨hsnap, fun t _ => rfl, fun _ => rfl⟩
    | updated f => exact ⟨hsnap, fun t h => absurd h (by simp), fun h => absurd h (by simp)⟩

/-- Witness for C8 at a concrete failing (section-not-found) call. -/
theorem C8_failed_update_still_snapshots_witness :
    (update_knowledge_section ⟨some "# A\nx\n", [], 5⟩ "2" "t" "new").1.snaps =
      [] ++ [(5, "# A\nx\n")] ∧
    (update_knowledge_section ⟨some "# A\nx\n", [], 5⟩ "2" "t" "new").1.file =
      some "# A\nx\n" :=
  ⟨(C8_failed_update_still_snapshots ⟨some "# A\nx\n", [], 5⟩ "# A\nx\n" "2" "t" "new"
      rfl (by simp)).1,
   (C8_failed_update_still_snapshots ⟨some "# A\nx\n", [], 5⟩ "# A\nx\n" "2" "t" "new"
      rfl (by simp)).2.2 (by decide)⟩

/-! ## Path validation stays inside the root -/

theorem splitSlashGo_mem_infix :
    ∀ (cs acc : List Char) (seg : String),
      seg ∈ splitSlashGo cs acc → seg.toList <:+: (acc.reverse ++ cs) := by
  intro cs
  induction cs with
  | nil =>
    intro acc seg hmem
    simp only [splitSlashGo, List.mem_singleton] at hmem
    subst hmem
    simp
  | cons c rest ih =>
    intro acc seg hmem
    by_cases hc : c = '/'
    · subst hc
      rw [splitSlashGo, if_pos rfl] at hmem
      rcases List.mem_cons.mp hmem with hmem | hmem
      · subst hmem
        exact ⟨[], '/' :: rest, by simp⟩
      · have := ih [] seg hmem
        simp only [List.reverse_nil, List.nil_append] at this
        exact this.trans ⟨acc.reverse ++ ['/'], [], by simp⟩
    · rw [splitSlashGo, if_neg hc] at hmem
      have := ih (c :: acc) seg hmem
      simpa using this

theorem listIsInfix_iff {n : List Char} :
    ∀ {h : List Char}, listIsInfix n h = true ↔ n <:+: h := by
  intro h
  induction h with
  | nil =>
    simp [listIsInfix, List.isPrefixOf_iff_prefix]
  | cons c rest ih =>
    simp only [listIsInfix, Bool.or_eq_true, List.isPrefixOf_iff_prefix, ih]
    constructor
    · rintro (hp | hi)
      · exact hp.isInfix
      · exact hi.trans (List.suffix_cons c rest).isInfix
    · intro hi
      rcases List.infix_cons_iff.mp hi with hp | hi2
      · exact Or.inl hp
      · exact Or.inr hi2

theorem pyIn_dotdot_of_seg {s : String} (h : ".." ∈ splitSlash s) :
    pyIn ".." s = true := by
  have hinf := splitSlashGo_mem_infix s.toList [] ".." h
  simp only [List.reverse_nil, List.nil_append] at hinf
  exact listIsInfix_iff.mpr hinf

theorem foldl_normStep_plain :
    ∀ (l : List String) (acc : List String),
      (∀ seg ∈ l, seg ≠ "" ∧ seg ≠ "." ∧ seg ≠ "..") →
      l.foldl normStep acc = acc ++ l := by
  intro l
  induction l with
  | nil => intro acc _; simp
  | cons seg l' ih =>
    intro acc hplain
    obtain ⟨h1, h2, h3⟩ := hplain seg (by simp)
    simp only [List.foldl_cons, normStep]
    rw [if_neg (by simp [h1, h2]), if_neg h3,
      ih (acc ++ [seg]) (fun s hs => hplain s (by simp [hs]))]
    simp

theorem foldl_normStep_no_dotdot :
    ∀ (l : List String) (acc : List String),
      (∀ seg ∈ l, seg ≠ "..") →
      ∃ rest, l.foldl normStep acc = acc ++ rest := by
  intro l
  induction l with
  | nil => intro acc _; exact ⟨[], by simp⟩
  | cons seg l' ih =>
    intro acc hno
    by_cases hskip : seg = "" || seg = "."
    · simp only [List.foldl_cons, normStep, if_pos hskip]
      exact ih acc (fun s hs => hno s (by simp [hs]))
    · simp only [List.foldl_cons, normStep, if_neg hskip,
        if_neg (hno seg (by simp))]
      obtain ⟨rest, hrest⟩ := ih (acc ++ [seg]) (fun s hs => hno s (by simp [hs]))
      exact ⟨[seg] ++ rest, by rw [hrest]; simp⟩

/-- C3: `_validate_path` rejects `"../secret.md"` with the
path-traversal failure, rejects every path whose clean form has a `..`
segment the same way, and every accepted path resolves to an absolute
path below the knowledge root, so no operation touches a file outside
the root. -/
theorem C3_validate_path_stays_in_root (cwd : List String) (path : String)
    (hcwd : cwdOk cwd = true) :
    _validate_path cwd "../secret.md" = .traversal "../secret.md" ∧
    (".." ∈ splitSlash (cleanOf path) →
      _validate_path cwd path = .traversal (cleanOf path)) ∧
    (∀ t, _validate_path cwd path = .ok t → ∃ rest, t = absStr (cwd ++ rest)) := by
  simp only [cwdOk, Bool.and_eq_true, List.all_eq_true, decide_eq_true_eq] at hcwd
  obtain ⟨-, hplain⟩ := hcwd
  refine ⟨rfl, ?_, ?_⟩
  · intro hseg
    have hin := pyIn_dotdot_of_seg hseg
    simp only [_validate_path]
    rw [if_pos hin]
  · intro t hok
    by_cases hin : pyIn ".." (cleanOf path) = true
    · simp only [_validate_path] at hok
      rw [if_pos hin] at hok
      exact absurd hok (by simp)
    · simp only [_validate_path] at hok
      rw [if_neg hin] at hok
      split at hok
      · simp only [PathResult.ok.injEq] at hok
        subst hok
        have hno : ∀ seg ∈ splitSlash (cleanOf path), seg ≠ ".." := by
          intro seg hs hcontra
          subst hcontra
          exact hin (pyIn_dotdot_of_seg hs)
        have hcwdfold : List.foldl normStep [] cwd = cwd := by
          have := foldl_normStep_plain cwd []
            (fun s hs => ⟨(hplain s hs).1.1, (hplain s hs).1.2, (hplain s hs).2⟩)
          simpa using this
        obtain ⟨rest, hrest⟩ := foldl_normStep_no_dotdot (splitSlash (cleanOf path)) cwd hno
        have hX : normSegs (cwd ++ ["."] ++ splitSlash (cleanOf path)) = cwd ++ rest := by
          simp only [normSegs]
          rw [List.foldl_append, List.foldl_append, hcwdfold]
          have hdot : List.foldl normStep cwd ["."] = cwd := by
            simp [normStep]
          rw [hdot, hrest]
        exact ⟨rest, by rw [hX]⟩
      · exact absurd hok (by simp)

/-- Witness for C3 at a concrete root and concrete paths. -/
theorem C3_validate_path_stays_in_root_witness :
    _validate_path ["home", "kb"] "../secret.md" = .traversal "../secret.md" ∧
    _validate_path ["home", "kb"] "a/../b" = .traversal "a/../b" ∧
    ∃ rest, "/home/kb/libs/react.md" = absStr (["home", "kb"] ++ rest) :=
  ⟨(C3_validate_path_stays_in_root ["home", "kb"] "x" (by decide)).1,
   (C3_validate_path_stays_in_root ["home", "kb"] "a/../b" (by decide)).2.1 (by decide),
   (C3_validate_path_stays_in_root ["home", "kb"] "libs/react.md" (by decide)).2.2
     "/home/kb/libs/react.md" (by decide)⟩

/-! ## Frontmatter round trip: string infrastructure -/

theorem isPrefixOf_append_of_le_length {sep z : List Char} (w : List Char)
    (h : sep.length ≤ z.length) :
    sep.isPrefixOf (z ++ w) = sep.isPrefixOf z := by
  induction sep generalizing z with
  | nil => simp [List.isPrefixOf]
  | cons s sep' ih =>
    cases z with
    | nil => simp at h
    | cons a z' =>
      simp only [List.cons_append, List.isPrefixOf, List.append_eq]
      rw [ih (by simpa using h)]

theorem listIsInfix_append_nl {yl : List Char}
    (h : listIsInfix ['-', '-', '-'] yl = false) :
    listIsInfix ['-', '-', '-'] (yl ++ ['\n']) = false := by
  induction yl with
  | nil => decide
  | cons y yl' ih =>
    simp only [listIsInfix, Bool.or_eq_false_iff] at h
    obtain ⟨hpre, hrest⟩ := h
    simp only [List.cons_append, listIsInfix, Bool.or_eq_false_iff, List.append_eq]
    refine ⟨?_, ih hrest⟩
    match yl' with
    | [] =>
      cases hy : y == '-' <;> simp [List.isPrefixOf, hy]
    | [d] =>
      cases hy : y == '-' <;> cases hd : d == '-' <;>
        simp [List.isPrefixOf, hy, hd]
    | d :: e :: rest2 =>
      have hsplit := @isPrefixOf_append_of_le_length ['-', '-', '-']
        (y :: d :: e :: rest2) ['\n'] (by simp)
      simp only [List.cons_append, List.append_eq] at hsplit ⊢
      rw [hsplit]
      exact hpre

theorem listIsInfix_cons_nl {yl : List Char}
    (h : listIsInfix ['-', '-', '-'] yl = false) :
    listIsInfix ['-', '-', '-'] ('\n' :: yl) = false := by
  simp only [listIsInfix, Bool.or_eq_false_iff]
  exact ⟨by simp [List.isPrefixOf], h⟩

theorem pyStripList_within (l : List Char) : pyStripList l <:+: l := by
  have h1 : l.dropWhile isPySpace <:+ l := List.dropWhile_suffix isPySpace
  have h2 : (l.dropWhile isPySpace).reverse.dropWhile isPySpace <:+
      (l.dropWhile isPySpace).reverse := List.dropWhile_suffix isPySpace
  have h3 : pyStripList l <+: l.dropWhile isPySpace := by
    rw [pyStripList]
    rw [← List.reverse_suffix]
    simpa using h2
  exact h3.isInfix.trans h1.isInfix

theorem splitFirst_dashes (t : List Char) :
    ∀ (u : List Char),
      listIsInfix ['-', '-', '-'] u = false →
      (∀ last, u.getLast? = some last → last ≠ '-') →
      splitFirst ['-', '-', '-'] (u ++ ['-', '-', '-'] ++ t) = some (u, t) := by
  intro u
  induction u with
  | nil =>
    intro _ _
    simp [splitFirst, List.isPrefixOf]
  | cons c u' ih =>
    intro hinf hlast
    simp only [listIsInfix, Bool.or_eq_false_iff] at hinf
    obtain ⟨hpre, hrest⟩ := hinf
    have hlast' : ∀ last, u'.getLast? = some last → last ≠ '-' := by
      intro last hl
      apply hlast last
      cases u' with
      | nil => simp at hl
      | cons a b =>
        rw [List.getLast?_cons_cons]
        exact hl
    have hnotpre : (['-', '-', '-'] : List Char).isPrefixOf
        (c :: (u' ++ ['-', '-', '-'] ++ t)) = false := by
      match u' with
      | [] =>
        have hc : c ≠ '-' := hlast c (by simp)
        have hc2 : ('-' == c) = false := beq_eq_false_iff_ne.mpr (Ne.symm hc)
        simp [List.isPrefixOf, hc2]
      | [d] =>
        have hd : d ≠ '-' := hlast' d (by simp)
        have hd2 : ('-' == d) = false := beq_eq_false_iff_ne.mpr (Ne.symm hd)
        simp [List.isPrefixOf, hd2]
      | d :: e :: rest2 =>
        have hsplit := @isPrefixOf_append_of_le_length ['-', '-', '-']
          (c :: d :: e :: rest2) (['-', '-', '-'] ++ t) (by simp)
        simp only [List.cons_append, List.append_assoc, List.append_eq] at hsplit ⊢
        rw [hsplit]
        simpa using hpre
    have harr : (c :: u') ++ ['-', '-', '-'] ++ t = c :: (u' ++ ['-', '-', '-'] ++ t) := by
      simp
    rw [harr, splitFirst, if_neg (by rw [hnotpre]; simp), ih hrest hlast']
    rfl

theorem stringJoin_toList (l : List String) :
    (String.join l).toList = (l.map String.toList).flatten := by
  have haux : ∀ (l : List String) (acc : String),
      (l.foldl (fun r s => r ++ s) acc).toList = acc.toList ++ (l.map String.toList).flatten := by
    intro l
    induction l with
    | nil => intro acc; simp
    | cons a as ih =>
      intro acc
      rw [List.foldl_cons, ih (acc ++ a)]
      simp
  rw [String.join, haux]
  rfl

theorem strip_eq_self_parts {l : List Char} (h : pyStripList l = l) :
    l.dropWhile isPySpace = l ∧ l.reverse.dropWhile isPySpace = l.reverse := by
  have hlen1 : (pyStripList l).length ≤ (l.dropWhile isPySpace).length := by
    simp only [pyStripList, List.length_reverse]
    have := (List.dropWhile_suffix (l := (l.dropWhile isPySpace).reverse) isPySpace).length_le
    simpa using this
  have hlen2 : (l.dropWhile isPySpace).length ≤ l.length :=
    (List.dropWhile_suffix isPySpace).length_le
  have heq : (l.dropWhile isPySpace).length = l.length := by
    have := congrArg List.length h
    omega
  have hdw : l.dropWhile isPySpace = l :=
    (List.dropWhile_suffix isPySpace).eq_of_length heq
  refine ⟨hdw, ?_⟩
  have h2 : (l.reverse.dropWhile isPySpace).reverse = l := by
    have := h
    rw [pyStripList, hdw] at this
    exact this
  have := congrArg List.reverse h2
  simpa using this

theorem dropWhile_self_head_nonspace {l : List Char}
    (h : l.dropWhile isPySpace = l) :
    ∀ c, l.head? = some c → isPySpace c = false := by
  intro c hc
  cases l with
  | nil => simp at hc
  | cons a tail =>
    simp only [List.head?_cons, Option.some.injEq] at hc
    subst hc
    by_contra hsp
    simp only [Bool.not_eq_false] at hsp
    rw [List.dropWhile_cons, if_pos hsp] at h
    have := congrArg List.length h
    have hle := (List.dropWhile_suffix (l := tail) isPySpace).length_le
    simp at this
    omega

theorem stripped_head_nonspace {l : List Char} (h : pyStripList l = l) :
    ∀ c, l.head? = some c → isPySpace c = false :=
  dropWhile_self_head_nonspace (strip_eq_self_parts h).1

theorem stripped_getLast_nonspace {l : List Char} (h : pyStripList l = l) :
    ∀ c, l.getLast? = some c → isPySpace c = false := by
  intro c hc
  apply dropWhile_self_head_nonspace (strip_eq_self_parts h).2 c
  rw [List.head?_reverse]
  exact hc

theorem pyStripList_append_nl {l : List Char}
    (hhead : ∀ c, l.head? = some c → isPySpace c = false)
    (hlast : ∀ c, l.getLast? = some c → isPySpace c = false) :
    pyStripList (l ++ ['\n']) = l := by
  cases l with
  | nil => decide
  | cons a tail =>
    have ha : isPySpace a = false := hhead a (by simp)
    rw [pyStripList, List.cons_append, List.dropWhile_cons, if_neg (by simp [ha])]
    have hrev : (a :: (tail ++ ['\n'])).reverse = '\n' :: (a :: tail).reverse := by
      simp
    rw [hrev, List.dropWhile_cons, if_pos (by decide)]
    have hlast2 : ∀ c, (a :: tail).reverse.head? = some c → isPySpace c = false := by
      intro c hc
      rw [List.head?_reverse] at hc
      exact hlast c hc
    cases hrev2 : (a :: tail).reverse with
    | nil => simp at hrev2
    | cons b tail2 =>
      have hb : isPySpace b = false := by
        apply hlast2 b
        rw [hrev2]
        rfl
      rw [List.dropWhile_cons, if_neg (by simp [hb]), ← hrev2]
      simp

/-! ## Frontmatter round trip: the dump's line structure -/

theorem yamlDump_toList_cons (kv : String × String) (rest : List (String × String)) :
    (yamlDump (kv :: rest)).toList = lineChars kv ++ '\n' :: (yamlDump rest).toList := by
  simp only [yamlDump, List.map_cons]
  rw [stringJoin_toList, stringJoin_toList]
  simp only [List.map_cons, List.flatten_cons, lineChars]
  have hentry : (kv.1 ++ ": " ++ kv.2 ++ "\n").toList =
      kv.1.toList ++ ':' :: ' ' :: kv.2.toList ++ ['\n'] := by
    show (kv.1 ++ ": " ++ kv.2 ++ "\n").data = _
    simp only [String.data_append]
    simp [String.toList]
  rw [hentry]
  simp

theorem metaEntryOk_parts {kv : String × String} (h : metaEntryOk kv = true) :
    kv.1.toList ≠ [] ∧ kv.2.toList ≠ [] ∧
    (∀ c ∈ kv.1.toList, isLineBreak c = false ∧ c ≠ ':') ∧
    (∀ c ∈ kv.2.toList, isLineBreak c = false) ∧
    pyStrip kv.1 = kv.1 ∧ pyStrip kv.2 = kv.2 := by
  simp only [metaEntryOk, Bool.and_eq_true, List.all_eq_true, decide_eq_true_eq,
    Bool.not_eq_eq_eq_not, Bool.not_true, List.isEmpty_eq_false] at h
  obtain ⟨⟨⟨⟨⟨h1, h2⟩, h3⟩, h4⟩, h5⟩, h6⟩ := h
  refine ⟨h1, h2, ?_, ?_, h5, h6⟩
  · intro c hc
    have := h3 c hc
    simp only [Bool.and_eq_true, Bool.not_eq_eq_eq_not, Bool.not_true, decide_eq_true_eq]
      at this
    exact this
  · intro c hc
    have := h4 c hc
    simpa using this

theorem takeWhile_dropWhile_break {α : Type} {p : α → Bool} :
    ∀ {xs : List α} {c : α} {rest : List α},
      (∀ x ∈ xs, p x = true) → p c = false →
      (xs ++ c :: rest).takeWhile p = xs ∧ (xs ++ c :: rest).dropWhile p = c :: rest := by
  intro xs
  induction xs with
  | nil =>
    intro c rest _ hc
    simp [List.takeWhile_cons, List.dropWhile_cons, hc]
  | cons x xs' ih =>
    intro c rest hxs hc
    have hx : p x = true := hxs x (by simp)
    simp only [List.cons_append, List.takeWhile_cons, List.dropWhile_cons, hx, if_true]
    obtain ⟨h1, h2⟩ := ih (fun y hy => hxs y (by simp [hy])) hc
    exact ⟨by rw [h1], by rw [h2]⟩

theorem pyStripList_cons_space {c : Char} {l : List Char} (hc : isPySpace c = true) :
    pyStripList (c :: l) = pyStripList l := by
  simp [pyStripList, List.dropWhile_cons, hc]

theorem parseYamlLine_lineChars {kv : String × String} (h : metaEntryOk kv = true) :
    parseYamlLine (String.mk (lineChars kv)) = some kv := by
  obtain ⟨hk1, hv1, hk2, -, hk3, hv3⟩ := metaEntryOk_parts h
  have hstripk : pyStripList kv.1.toList = kv.1.toList := by
    have := congrArg String.toList hk3
    simpa [pyStrip] using this
  have hstripv : pyStripList kv.2.toList = kv.2.toList := by
    have := congrArg String.toList hv3
    simpa [pyStrip] using this
  obtain ⟨htw, hdw⟩ := @takeWhile_dropWhile_break Char (fun c => decide (c ≠ ':'))
    kv.1.toList ':' (' ' :: kv.2.toList)
    (fun x hx => by simpa using (hk2 x hx).2) (by simp)
  have hne : ((pyStripList (lineChars kv)).isEmpty = true) → False := by
    intro hcontra
    rw [List.isEmpty_eq_true] at hcontra
    have hall := all_isPySpace_of_strip_nil hcontra
    have : isPySpace ':' = true := hall ':' (by simp [lineChars])
    exact absurd this (by decide)
  simp only [parseYamlLine]
  have hl : (String.mk (lineChars kv)).toList = lineChars kv := rfl
  rw [hl, if_neg hne]
  rw [show lineChars kv = kv.1.toList ++ ':' :: ' ' :: kv.2.toList from rfl]
  rw [htw, hdw]
  show some (String.mk (pyStripList kv.1.toList),
      String.mk (pyStripList (' ' :: kv.2.toList))) = some kv
  rw [hstripk, pyStripList_cons_space (by decide), hstripv]
  rfl

theorem splitlinesGo_cons_nobreak {c : Char} (hc : isLineBreak c = false)
    (cs acc : List Char) :
    splitlinesGo (c :: cs) acc = splitlinesGo cs (c :: acc) := by
  have hcr : ¬(c = '\r') := by
    intro hh
    subst hh
    exact absurd hc (by decide)
  rw [splitlinesGo.eq_def]
  dsimp only
  rw [if_neg hcr, if_neg (by simp [hc])]

theorem splitlinesGo_newline (cs acc : List Char) :
    splitlinesGo ('\n' :: cs) acc = String.mk acc.reverse :: splitlinesGo cs [] := by
  rw [splitlinesGo.eq_def]
  dsimp only
  rw [if_neg (by decide), if_pos (by decide)]

theorem splitlinesGo_nobreak_append (rest : List Char) :
    ∀ (pre acc : List Char), (∀ c ∈ pre, isLineBreak c = false) →
      splitlinesGo (pre ++ '\n' :: rest) acc =
        String.mk (acc.reverse ++ pre) :: splitlinesGo rest [] := by
  intro pre
  induction pre with
  | nil =>
    intro acc _
    rw [List.nil_append, splitlinesGo_newline]
    simp
  | cons c pre' ih =>
    intro acc hnb
    have hc : isLineBreak c = false := hnb c (by simp)
    rw [List.cons_append, splitlinesGo_cons_nobreak hc, ih (c :: acc)
      (fun x hx => hnb x (by simp [hx]))]
    simp

theorem load_entries :
    ∀ (ext : List (String × String)), metaOk ext = true →
      (splitlinesGo (yamlDump ext).toList []).filterMap parseYamlLine = ext := by
  intro ext
  induction ext with
  | nil =>
    intro _
    rfl
  | cons kv rest ih =>
    intro hok
    simp only [metaOk, List.all_cons, Bool.and_eq_true] at hok
    obtain ⟨hkv, hrest⟩ := hok
    rw [yamlDump_toList_cons,
      splitlinesGo_nobreak_append _ (lineChars kv) []
        (by
          intro c hc
          obtain ⟨-, -, hk2, hv2, -, -⟩ := metaEntryOk_parts hkv
          simp only [lineChars, List.mem_append, List.mem_cons] at hc
          rcases hc with hc | hc | hc | hc
          · exact (hk2 c hc).1
          · subst hc; decide
          · subst hc; decide
          · exact hv2 c hc)]
    simp only [List.reverse_nil, List.nil_append, List.filterMap_cons,
      parseYamlLine_lineChars hkv]
    rw [ih (by simp only [metaOk]; exact hrest)]

/-! ## Frontmatter round trip: stripping the dump and the claim -/

theorem strip_toList {s : String} (h : pyStrip s = s) :
    pyStripList s.toList = s.toList := by
  have := congrArg String.toList h
  simpa [pyStrip] using this

theorem lineChars_ne_nil (kv : String × String) : lineChars kv ≠ [] := by
  simp [lineChars]

theorem lineChars_head_nonspace {kv : String × String} (h : metaEntryOk kv = true) :
    ∀ c, (lineChars kv).head? = some c → isPySpace c = false := by
  obtain ⟨hk1, -, -, -, hk3, -⟩ := metaEntryOk_parts h
  intro c hc
  apply stripped_head_nonspace (strip_toList hk3) c
  cases hkl : kv.1.toList with
  | nil => exact absurd hkl hk1
  | cons a tail =>
    simp only [lineChars, hkl, List.cons_append, List.head?_cons] at hc
    rw [List.head?_cons]
    exact hc

theorem lineChars_getLast_nonspace {kv : String × String} (h : metaEntryOk kv = true) :
    ∀ c, (lineChars kv).getLast? = some c → isPySpace c = false := by
  obtain ⟨-, hv1, -, -, -, hv3⟩ := metaEntryOk_parts h
  intro c hc
  apply stripped_getLast_nonspace (strip_toList hv3) c
  rw [show lineChars kv = (kv.1.toList ++ [':', ' ']) ++ kv.2.toList from by
    simp [lineChars]] at hc
  rw [List.getLast?_append] at hc
  cases hvl : kv.2.toList.getLast? with
  | none =>
    rw [List.getLast?_eq_none_iff] at hvl
    exact absurd hvl hv1
  | some x =>
    rw [hvl] at hc
    simp only [Option.or_some, Option.some.injEq] at hc
    rw [hc]

theorem dump_core :
    ∀ (ext : List (String × String)), metaOk ext = true → ext ≠ [] →
      ∃ core, (yamlDump ext).toList = core ++ ['\n'] ∧ core ≠ [] ∧
        (∀ c, core.head? = some c → isPySpace c = false) ∧
        (∀ c, core.getLast? = some c → isPySpace c = false) := by
  intro ext
  induction ext with
  | nil => intro _ hne; exact absurd rfl hne
  | cons kv rest ih =>
    intro hok _
    simp only [metaOk, List.all_cons, Bool.and_eq_true] at hok
    obtain ⟨hkv, hrest⟩ := hok
    cases rest with
    | nil =>
      refine ⟨lineChars kv, ?_, lineChars_ne_nil kv,
        lineChars_head_nonspace hkv, lineChars_getLast_nonspace hkv⟩
      rw [yamlDump_toList_cons]
      rfl
    | cons kv2 rest2 =>
      obtain ⟨core2, hc1, hc2, hc3, hc4⟩ :=
        ih (by simp only [metaOk]; exact hrest) (by simp)
      refine ⟨lineChars kv ++ '\n' :: core2, ?_, by simp, ?_, ?_⟩
      · rw [yamlDump_toList_cons, hc1]
        simp
      · intro c hc
        apply lineChars_head_nonspace hkv c
        rw [List.head?_append] at hc
        cases hh : (lineChars kv).head? with
        | none =>
          rw [List.head?_eq_none_iff] at hh
          exact absurd hh (lineChars_ne_nil kv)
        | some a =>
          rw [hh] at hc
          simp only [Option.or_some] at hc
          exact hc
      · intro c hc
        apply hc4 c
        rw [show lineChars kv ++ '\n' :: core2 = (lineChars kv ++ ['\n']) ++ core2 from by
          simp] at hc
        rw [List.getLast?_append] at hc
        cases hl2 : core2.getLast? with
        | none =>
          rw [List.getLast?_eq_none_iff] at hl2
          exact absurd hl2 hc2
        | some x =>
          rw [hl2] at hc
          simp only [Option.or_some, Option.some.injEq] at hc
          rw [hc]

theorem dump_strip {ext : List (String × String)}
    (hok : metaOk ext = true) (hne : ext ≠ []) :
    (yamlDump ext).toList = pyStripList (yamlDump ext).toList ++ ['\n'] := by
  obtain ⟨core, h1, -, h3, h4⟩ := dump_core ext hok hne
  rw [h1, pyStripList_append_nl h3 h4]

/-- C4 counterexample: for the mapping with value `a---b`, the
`split("---", 2)` step of decoding cuts inside the value, so the
decoded metadata is not the encoded mapping extended with
`last_updated`. -/
theorem C4_counterexample_dashes_in_value :
    (_parse_frontmatter (_build_frontmatter "2026-10-12" [("title", "a---b")] ++ "")).1 ≠
      [("title", "a---b")] ++ [("last_updated", "2026-10-12")] := by decide

/-- C4 (amended): the frontmatter round-trip law
`decode(encode(m) + body).metadata = m + [last_updated := today]` holds
for every mapping `m` lacking `last_updated` in the modelled flat
string-mapping domain, provided the serialized mapping text contains no
occurrence of `---` (the counterexample shows the law fails without
that proviso, because `split("---", 2)` finds the occurrence inside the
metadata block). -/
theorem C4_roundtrip_amended (m : List (String × String)) (body today : String)
    (hno : m.any (fun kv => kv.1 = "last_updated") = false)
    (hwf : metaOk (m ++ [("last_updated", today)]) = true)
    (hdash : pyIn "---" (yamlDump (m ++ [("last_updated", today)])) = false) :
    (_parse_frontmatter (_build_frontmatter today m ++ body)).1 =
      m ++ [("last_updated", today)] := by
  have hnee : m ++ [("last_updated", today)] ≠ [] := by simp
  have hbuild : _build_frontmatter today m =
      "---\n" ++ pyStrip (yamlDump (m ++ [("last_updated", today)])) ++ "\n---\n" := by
    simp only [_build_frontmatter]
    rw [if_neg (by simp [hno])]
  have hstr := dump_strip hwf hnee
  have hcontent : (_build_frontmatter today m ++ body).toList =
      ['-', '-', '-'] ++
        (('\n' :: (pyStripList (yamlDump (m ++ [("last_updated", today)])).toList ++ ['\n'])) ++
          (['-', '-', '-'] ++ ('\n' :: body.toList))) := by
    rw [hbuild]
    show (("---\n" ++ pyStrip (yamlDump (m ++ [("last_updated", today)])) ++ "\n---\n") ++
      body).data = _
    simp only [String.data_append]
    show ['-', '-', '-', '\n'] ++
        pyStripList (yamlDump (m ++ [("last_updated", today)])).toList ++
        ['\n', '-', '-', '-', '\n'] ++ body.toList = _
    simp
  have hnd : listIsInfix ['-', '-', '-']
      (pyStripList (yamlDump (m ++ [("last_updated", today)])).toList) = false := by
    cases hval : listIsInfix ['-', '-', '-']
        (pyStripList (yamlDump (m ++ [("last_updated", today)])).toList) with
    | false => rfl
    | true =>
      have hinf := listIsInfix_iff.mp hval
      have htrans := hinf.trans
        (pyStripList_within (yamlDump (m ++ [("last_updated", today)])).toList)
      have : listIsInfix ['-', '-', '-']
          (yamlDump (m ++ [("last_updated", today)])).toList = true :=
        listIsInfix_iff.mpr htrans
      rw [pyIn] at hdash
      rw [show ("---" : String).toList = ['-', '-', '-'] from rfl] at hdash
      rw [this] at hdash
      exact absurd hdash (by simp)
  have hnd2 : listIsInfix ['-', '-', '-']
      ('\n' :: (pyStripList (yamlDump (m ++ [("last_updated", today)])).toList ++ ['\n'])) =
      false :=
    listIsInfix_cons_nl (listIsInfix_append_nl hnd)
  have hsplit2 := splitFirst_dashes ('\n' :: body.toList)
    ('\n' :: (pyStripList (yamlDump (m ++ [("last_updated", today)])).toList ++ ['\n']))
    hnd2
    (by
      intro last hl
      rw [show ('\n' :: (pyStripList (yamlDump (m ++ [("last_updated", today)])).toList ++
          ['\n'])) =
          ('\n' :: pyStripList (yamlDump (m ++ [("last_updated", today)])).toList) ++ ['\n']
        from by simp, List.getLast?_concat] at hl
      simp only [Option.some.injEq] at hl
      subst hl
      decide)
  have hsplit1 : splitFirst ['-', '-', '-'] (_build_frontmatter today m ++ body).toList =
      some ([],
        ('\n' :: (pyStripList (yamlDump (m ++ [("last_updated", today)])).toList ++ ['\n'])) ++
          (['-', '-', '-'] ++ ('\n' :: body.toList))) := by
    rw [hcontent]
    have := splitFirst_dashes
      ((('\n' :: (pyStripList (yamlDump (m ++ [("last_updated", today)])).toList ++ ['\n'])) ++
        (['-', '-', '-'] ++ ('\n' :: body.toList)))) [] (by decide) (by simp)
    simpa using this
  have hstarts : pyStartsWith "---" (_build_frontmatter today m ++ body) = true := by
    rw [pyStartsWith, show ("---" : String).toList = ['-', '-', '-'] from rfl, hcontent]
    rw [List.isPrefixOf_iff_prefix]
    exact List.prefix_append _ _
  have hps : pySplit2 "---" (_build_frontmatter today m ++ body) =
      [String.mk [],
       String.mk ('\n' :: (pyStripList (yamlDump (m ++ [("last_updated", today)])).toList ++
         ['\n'])),
       String.mk ('\n' :: body.toList)] := by
    rw [pySplit2, show ("---" : String).toList = ['-', '-', '-'] from rfl, hsplit1]
    have hsplit2x := hsplit2
    rw [List.append_assoc] at hsplit2x
    dsimp only
    rw [hsplit2x]
  rw [_parse_frontmatter.eq_def]
  rw [if_pos hstarts, hps]
  simp only [List.length_cons, List.length_nil]
  rw [if_pos (by omega)]
  show yamlSafeLoad (String.mk
    ('\n' :: (pyStripList (yamlDump (m ++ [("last_updated", today)])).toList ++ ['\n']))) = _
  rw [yamlSafeLoad]
  have hlines : pySplitlines (String.mk
      ('\n' :: (pyStripList (yamlDump (m ++ [("last_updated", today)])).toList ++ ['\n']))) =
      String.mk [] :: splitlinesGo (yamlDump (m ++ [("last_updated", today)])).toList [] := by
    rw [pySplitlines]
    show splitlinesGo
      ('\n' :: (pyStripList (yamlDump (m ++ [("last_updated", today)])).toList ++ ['\n'])) [] = _
    rw [splitlinesGo_newline, ← hstr]
    rfl
  rw [hlines, List.filterMap_cons]
  rw [show parseYamlLine (String.mk []) = none from by decide]
  exact load_entries (m ++ [("last_updated", today)]) hwf

/-- Witness for C4 (amended) at a concrete mapping, body and date. -/
theorem C4_roundtrip_amended_witness :
    (_parse_frontmatter
      (_build_frontmatter "2026-10-12" [("title", "React Hooks")] ++ "\nbody")).1 =
      [("title", "React Hooks")] ++ [("last_updated", "2026-10-12")] :=
  C4_roundtrip_amended [("title", "React Hooks")] "\nbody" "2026-10-12"
    (by decide) (by decide) (by decide)

/-! ## Line-separator normalization of the rewritten file (C9) -/

theorem splitlinesGo_crlf (cs acc : List Char) :
    splitlinesGo ('\r' :: '\n' :: cs) acc =
      String.mk acc.reverse :: splitlinesGo cs [] := rfl

theorem splitlinesGo_cr_nil (acc : List Char) :
    splitlinesGo ['\r'] acc = String.mk acc.reverse :: splitlinesGo [] [] := rfl

theorem splitlinesGo_cr_other {c2 : Char} (h : ¬(c2 = '\n')) (cs acc : List Char) :
    splitlinesGo ('\r' :: c2 :: cs) acc =
      String.mk acc.reverse :: splitlinesGo (c2 :: cs) [] := by
  rw [splitlinesGo.eq_def]
  dsimp only
  rw [if_pos rfl]
  split
  · next rest2 heq =>
    rw [List.cons_eq_cons] at heq
    exact absurd heq.1 h
  · next heq => exact absurd heq (by simp)
  · next c d hx heq => rw [heq]

theorem splitlinesGo_brk {c : Char} (hc : isLineBreak c = true) (hcr : ¬(c = '\r'))
    (cs acc : List Char) :
    splitlinesGo (c :: cs) acc = String.mk acc.reverse :: splitlinesGo cs [] := by
  rw [splitlinesGo.eq_def]
  dsimp only
  rw [if_neg hcr, if_pos hc]

theorem rev_all_break_free {acc : List Char}
    (hacc : ∀ c ∈ acc, isLineBreak c = false) :
    (String.mk acc.reverse).toList.all (fun c => !isLineBreak c) = true := by
  show acc.reverse.all (fun c => !isLineBreak c) = true
  rw [List.all_eq_true]
  intro x hx
  rw [List.mem_reverse] at hx
  simp [hacc x hx]

theorem splitlinesGo_nil_mem {acc : List Char}
    (hacc : ∀ c ∈ acc, isLineBreak c = false) :
    ∀ l ∈ splitlinesGo [] acc, l.toList.all (fun c => !isLineBreak c) = true := by
  intro l hl
  rw [splitlinesGo.eq_def] at hl
  dsimp only at hl
  by_cases hacc0 : acc.isEmpty
  · rw [if_pos hacc0] at hl
    simp at hl
  · rw [if_neg hacc0] at hl
    simp only [List.mem_singleton] at hl
    subst hl
    exact rev_all_break_free hacc

theorem splitlinesGo_break_free :
    ∀ (k : Nat) (cs acc : List Char), cs.length ≤ k →
      (∀ c ∈ acc, isLineBreak c = false) →
      ∀ l ∈ splitlinesGo cs acc, l.toList.all (fun c => !isLineBreak c) = true := by
  intro k
  induction k with
  | zero =>
    intro cs acc hlen hacc
    have hnil : cs = [] := by
      cases cs with
      | nil => rfl
      | cons a as => simp at hlen
    subst hnil
    exact splitlinesGo_nil_mem hacc
  | succ k ih =>
    intro cs acc hlen hacc
    cases cs with
    | nil => exact splitlinesGo_nil_mem hacc
    | cons c rest =>
      simp only [List.length_cons, Nat.succ_le_succ_iff] at hlen
      by_cases hcr : c = '\r'
      · subst hcr
        cases rest with
        | nil =>
          rw [splitlinesGo_cr_nil]
          intro l hl
          rcases List.mem_cons.mp hl with hl | hl
          · subst hl
            exact rev_all_break_free hacc
          · exact splitlinesGo_nil_mem (by intro x hx; simp at hx) l hl
        | cons c2 rest2 =>
          by_cases hc2 : c2 = '\n'
          · subst hc2
            rw [splitlinesGo_crlf]
            intro l hl
            rcases List.mem_cons.mp hl with hl | hl
            · subst hl
              exact rev_all_break_free hacc
            · exact ih rest2 [] (by simp at hlen; omega) (by intro x hx; simp at hx) l hl
          · rw [splitlinesGo_cr_other hc2]
            intro l hl
            rcases List.mem_cons.mp hl with hl | hl
            · subst hl
              exact rev_all_break_free hacc
            · exact ih (c2 :: rest2) [] hlen (by intro x hx; simp at hx) l hl
      · by_cases hbr : isLineBreak c = true
        · rw [splitlinesGo_brk hbr hcr]
          intro l hl
          rcases List.mem_cons.mp hl with hl | hl
          · subst hl
            exact rev_all_break_free hacc
          · exact ih rest [] (by omega) (by intro x hx; simp at hx) l hl
        · have hbf : isLineBreak c = false := by
            cases hh : isLineBreak c with
            | false => rfl
            | true => exact absurd hh hbr
          rw [splitlinesGo_cons_nobreak hbf]
          refine ih rest (c :: acc) (by omega) ?_
          intro x hx
          rcases List.mem_cons.mp hx with hx | hx
          · subst hx; exact hbf
          · exact hacc x hx

theorem pySplitlines_break_free (s : String) :
    ∀ l ∈ pySplitlines s, l.toList.all (fun c => !isLineBreak c) = true := by
  exact splitlinesGo_break_free s.toList.length s.toList []
    (Nat.le_refl _) (by intro x hx; simp at hx)

theorem all_lf_of_break_free {l : List Char}
    (h : l.all (fun c => !isLineBreak c) = true) :
    l.all (fun c => !isLineBreak c || decide (c = '\n')) = true := by
  rw [List.all_eq_true] at h ⊢
  intro c hc
  rw [Bool.or_eq_true]
  exact Or.inl (h c hc)

theorem joinSep_lf_only :
    ∀ ls : List String, (∀ l ∈ ls, l.toList.all (fun c => !isLineBreak c) = true) →
      (joinSep "\n" ls).toList.all (fun c => !isLineBreak c || decide (c = '\n')) = true := by
  intro ls
  induction ls with
  | nil => intro _; decide
  | cons a as ih =>
    intro h
    show (("\n" ++ a ++ joinSep "\n" as)).toList.all _ = true
    rw [show ("\n" ++ a ++ joinSep "\n" as).toList =
        ("\n".toList ++ a.toList) ++ (joinSep "\n" as).toList from String.data_append _ _]
    rw [List.all_append, List.all_append, Bool.and_eq_true, Bool.and_eq_true]
    refine ⟨⟨by decide, all_lf_of_break_free (h a (by simp))⟩, ?_⟩
    exact ih (fun l hl => h l (List.mem_cons_of_mem a hl))

theorem intercalate_lf_only (ls : List String)
    (h : ∀ l ∈ ls, l.toList.all (fun c => !isLineBreak c) = true) :
    (String.intercalate "\n" ls).toList.all
      (fun c => !isLineBreak c || decide (c = '\n')) = true := by
  cases ls with
  | nil => decide
  | cons a as =>
    rw [intercalate_eq_joinSep]
    rw [show (a ++ joinSep "\n" as).toList = a.toList ++ (joinSep "\n" as).toList from
      String.data_append _ _]
    rw [List.all_append, Bool.and_eq_true]
    exact ⟨all_lf_of_break_free (h a (by simp)),
      joinSep_lf_only as (fun l hl => h l (List.mem_cons_of_mem a hl))⟩

theorem spliceContent_lf_only (content : String) (s e : Nat) (newContent : String) :
    (spliceContent content s e newContent).toList.all
      (fun c => !isLineBreak c || decide (c = '\n')) = true := by
  have hbase : (String.intercalate "\n"
      ((pySplitlines content).take s ++ pySplitlines newContent ++
        (pySplitlines content).drop e)).toList.all
      (fun c => !isLineBreak c || decide (c = '\n')) = true := by
    apply intercalate_lf_only
    intro l hl
    rcases List.mem_append.mp hl with hl | hl
    · rcases List.mem_append.mp hl with hl | hl
      · exact pySplitlines_break_free content l (List.mem_of_mem_take hl)
      · exact pySplitlines_break_free newContent l hl
    · exact pySplitlines_break_free content l (List.mem_of_mem_drop hl)
  simp only [spliceContent]
  by_cases hres : (endsWithLF content &&
      !endsWithLF (String.intercalate "\n"
        ((pySplitlines content).take s ++ pySplitlines newContent ++
          (pySplitlines content).drop e))) = true
  · rw [if_pos hres]
    rw [show (String.intercalate "\n"
        ((pySplitlines content).take s ++ pySplitlines newContent ++
          (pySplitlines content).drop e) ++ "\n").toList =
        (String.intercalate "\n"
          ((pySplitlines content).take s ++ pySplitlines newContent ++
            (pySplitlines content).drop e)).toList ++ "\n".toList from
      String.data_append _ _]
    rw [List.all_append, Bool.and_eq_true]
    exact ⟨hbase, by decide⟩
  · rw [if_neg hres]
    exact hbase

/-- C9 counterexample: a document ending in three newlines still ends in
two after a successful edit of its first section (one comes from the
final empty split line, one from the separator before it), so the claim
that all but at most one trailing newline are dropped fails. -/
theorem C9_counterexample_two_trailing_newlines :
    sectionEdit "# A\nx\n# B\n\n\n" "1" "A" "# A\nnew" =
        .updated "# A\nnew\n# B\n\n" ∧
      "# A\nnew\n# B\n\n".toList.getLast? = some '\n' ∧
      "# A\nnew\n# B\n\n".toList.dropLast.getLast? = some '\n' := by decide

/-- C9 (amended): for every successful non-APPEND update, the rewritten
file is exactly the LF-join of the original split lines with the target
range replaced by the new content's split lines, with a single trailing
LF restored when the original ended in a line break and the join does
not; every line-separator byte of the result is LF.  Separator bytes
are normalized, but trailing blank lines survive as empty lines of the
join, so the trailing-newline count is not reduced to at most one. -/
theorem C9_splice_formula_and_lf_normalization
    (content nodeId expected newContent : String) (n : OutlineNode)
    (h : (_get_outline_tree content).find? (fun nd => nd.id == nodeId) = some n)
    (hlock : lockOk expected n.title = true) :
    sectionEdit content nodeId expected newContent =
      .updated (spliceContent content (n.line_start - 1)
        (targetRangeEnd (pySplitlines content) (n.line_start - 1) n.level) newContent) ∧
    (spliceContent content (n.line_start - 1)
        (targetRangeEnd (pySplitlines content) (n.line_start - 1) n.level)
        newContent).toList.all
      (fun c => !isLineBreak c || decide (c = '\n')) = true :=
  ⟨sectionEdit_updated_of content nodeId expected newContent n h hlock,
    spliceContent_lf_only content _ _ newContent⟩

theorem C9_splice_formula_and_lf_normalization_witness :
    ((_get_outline_tree "# A\r\nx\n# B\n").find? (fun nd => nd.id == "1") =
        some ⟨"1", "A", 1, 1⟩ ∧ lockOk "a" "A" = true) ∧
      (sectionEdit "# A\r\nx\n# B\n" "1" "a" "# A\nnew" =
          .updated (spliceContent "# A\r\nx\n# B\n" 0
            (targetRangeEnd (pySplitlines "# A\r\nx\n# B\n") 0 1) "# A\nnew") ∧
        (spliceContent "# A\r\nx\n# B\n" 0
            (targetRangeEnd (pySplitlines "# A\r\nx\n# B\n") 0 1) "# A\nnew").toList.all
          (fun c => !isLineBreak c || decide (c = '\n')) = true) :=
  ⟨⟨by decide, by decide⟩,
    C9_splice_formula_and_lf_normalization "# A\r\nx\n# B\n" "1" "a" "# A\nnew"
      ⟨"1", "A", 1, 1⟩ (by decide) (by decide)⟩

/-! ## The matcher: bounds and correctness of the matching blocks -/

theorem foldl_inv {α β : Type} (P : α → Prop) (f : α → β → α) :
    ∀ (l : List β) (acc : α), P acc → (∀ x ∈ l, ∀ a, P a → P (f a x)) →
      P (l.foldl f acc) := by
  intro l
  induction l with
  | nil => intro acc h _; exact h
  | cons x xs ih =>
    intro acc h hstep
    exact ih (f acc x) (hstep x (by simp) acc h)
      (fun y hy => hstep y (by simp [hy]))

theorem foldl_fix {α β : Type} (f : α → β → α) :
    ∀ (l : List β) (acc : α), (∀ x ∈ l, f acc x = acc) → l.foldl f acc = acc := by
  intro l
  induction l with
  | nil => intro acc _; rfl
  | cons x xs ih =>
    intro acc h
    rw [List.foldl_cons, h x (by simp)]
    exact ih acc (fun y hy => h y (by simp [hy]))

theorem commonRun_le_left : ∀ xs ys : List String, commonRun xs ys ≤ xs.length := by
  intro xs
  induction xs with
  | nil => intro ys; cases ys <;> simp [commonRun]
  | cons x xs ih =>
    intro ys
    cases ys with
    | nil => simp [commonRun]
    | cons y ys =>
      by_cases h : x = y
      · simp only [commonRun, if_pos h, List.length_cons]
        exact Nat.succ_le_succ (ih ys)
      · simp [commonRun, if_neg h]

theorem commonRun_le_right : ∀ xs ys : List String, commonRun xs ys ≤ ys.length := by
  intro xs
  induction xs with
  | nil => intro ys; cases ys <;> simp [commonRun]
  | cons x xs ih =>
    intro ys
    cases ys with
    | nil => simp [commonRun]
    | cons y ys =>
      by_cases h : x = y
      · simp only [commonRun, if_pos h, List.length_cons]
        exact Nat.succ_le_succ (ih ys)
      · simp [commonRun, if_neg h]

theorem commonRun_take : ∀ xs ys : List String,
    xs.take (commonRun xs ys) = ys.take (commonRun xs ys) := by
  intro xs
  induction xs with
  | nil => intro ys; cases ys <;> simp [commonRun]
  | cons x xs ih =>
    intro ys
    cases ys with
    | nil => simp [commonRun]
    | cons y ys =>
      by_cases h : x = y
      · simp only [commonRun, if_pos h, List.take_succ_cons]
        rw [h, ih ys]
      · simp [commonRun, if_neg h]

theorem commonRun_self : ∀ xs : List String, commonRun xs xs = xs.length := by
  intro xs
  induction xs with
  | nil => rfl
  | cons x xs ih => simp [commonRun, ih]

theorem matchLenAt_le_left (a b : List String) (ahi bhi i j : Nat) (hi : i ≤ ahi) :
    i + matchLenAt a b ahi bhi i j ≤ ahi := by
  have h := commonRun_le_left ((a.take ahi).drop i) ((b.take bhi).drop j)
  rw [List.length_drop, List.length_take] at h
  simp only [matchLenAt]
  omega

theorem matchLenAt_le_right (a b : List String) (ahi bhi i j : Nat) (hj : j ≤ bhi) :
    j + matchLenAt a b ahi bhi i j ≤ bhi := by
  have h := commonRun_le_right ((a.take ahi).drop i) ((b.take bhi).drop j)
  rw [List.length_drop, List.length_take] at h
  simp only [matchLenAt]
  omega

theorem matchLenAt_le_window (a b : List String) (ahi bhi i j : Nat) :
    matchLenAt a b ahi bhi i j ≤ ahi - i := by
  have h := commonRun_le_left ((a.take ahi).drop i) ((b.take bhi).drop j)
  rw [List.length_drop, List.length_take] at h
  simp only [matchLenAt]
  omega

theorem matchLenAt_blockOk (a b : List String) (ahi bhi i j : Nat) :
    (a.drop i).take (matchLenAt a b ahi bhi i j) =
      (b.drop j).take (matchLenAt a b ahi bhi i j) := by
  simp only [matchLenAt, List.drop_take]
  have hk1 := commonRun_le_left ((a.drop i).take (ahi - i)) ((b.drop j).take (bhi - j))
  have hk2 := commonRun_le_right ((a.drop i).take (ahi - i)) ((b.drop j).take (bhi - j))
  rw [List.length_take, List.length_drop] at hk1 hk2
  have h := commonRun_take ((a.drop i).take (ahi - i)) ((b.drop j).take (bhi - j))
  rw [List.take_take, List.take_take] at h
  rw [Nat.min_eq_left (by omega), Nat.min_eq_left (by omega)] at h
  exact h

theorem bestMatch_spec (a b : List String) (alo ahi blo bhi : Nat)
    (ha : alo ≤ ahi) (hb : blo ≤ bhi) :
    alo ≤ (bestMatch a b alo ahi blo bhi).1 ∧
    blo ≤ (bestMatch a b alo ahi blo bhi).2.1 ∧
    (bestMatch a b alo ahi blo bhi).1 + (bestMatch a b alo ahi blo bhi).2.2 ≤ ahi ∧
    (bestMatch a b alo ahi blo bhi).2.1 + (bestMatch a b alo ahi blo bhi).2.2 ≤ bhi ∧
    blockOk a b (bestMatch a b alo ahi blo bhi) := by
  simp only [bestMatch]
  refine foldl_inv
    (fun m => alo ≤ m.1 ∧ blo ≤ m.2.1 ∧ m.1 + m.2.2 ≤ ahi ∧ m.2.1 + m.2.2 ≤ bhi ∧
      blockOk a b m) _ _ (alo, blo, 0)
    ⟨Nat.le_refl _, Nat.le_refl _, by simpa using ha, by simpa using hb,
      by simp [blockOk]⟩ ?_
  intro i hi m hm
  refine foldl_inv
    (fun m => alo ≤ m.1 ∧ blo ≤ m.2.1 ∧ m.1 + m.2.2 ≤ ahi ∧ m.2.1 + m.2.2 ≤ bhi ∧
      blockOk a b m) _ _ _ hm ?_
  intro j hj m2 hm2
  dsimp only
  by_cases hlt : m2.2.2 < matchLenAt a b ahi bhi i j
  · rw [if_pos hlt]
    have hi2 := List.mem_range'_1.mp hi
    have hj2 := List.mem_range'_1.mp hj
    exact ⟨hi2.1, hj2.1,
      matchLenAt_le_left a b ahi bhi i j (by omega),
      matchLenAt_le_right a b ahi bhi i j (by omega),
      matchLenAt_blockOk a b ahi bhi i j⟩
  · rw [if_neg hlt]
    exact hm2

theorem bestMatch_self (a : List String) (hne : a ≠ []) :
    bestMatch a a 0 a.length 0 a.length = (0, 0, a.length) := by
  have hn : 0 < a.length := List.length_pos.mpr hne
  have hml : ∀ i j, matchLenAt a a a.length a.length i j ≤ a.length - i :=
    fun i j => matchLenAt_le_window a a a.length a.length i j
  have hml00 : matchLenAt a a a.length a.length 0 0 = a.length := by
    simp only [matchLenAt, List.take_length, List.drop_zero]
    exact commonRun_self a
  obtain ⟨n, hn2⟩ : ∃ n, a.length = n + 1 := ⟨a.length - 1, by omega⟩
  have hrange : List.range' 0 (a.length - 0) = 0 :: List.range' 1 n := by
    rw [Nat.sub_zero, hn2, List.range'_succ]
  simp only [bestMatch, hrange]
  rw [List.foldl_cons]
  have hinner0 : (List.range' 1 n).foldl
      (fun best j =>
        let k := matchLenAt a a a.length a.length 0 j
        if best.2.2 < k then (0, j, k) else best)
      (0, 0, a.length) = (0, 0, a.length) := by
    apply foldl_fix
    intro j hj
    dsimp only
    rw [if_neg (by have := hml 0 j; omega)]
  have hfirst : (0 :: List.range' 1 n).foldl
      (fun best j =>
        let k := matchLenAt a a a.length a.length 0 j
        if best.2.2 < k then (0, j, k) else best)
      (0, 0, 0) = (0, 0, a.length) := by
    rw [List.foldl_cons]
    have hstep0 : (let k := matchLenAt a a a.length a.length 0 0
        if (0, 0, 0).2.2 < k then (0, 0, k) else (0, 0, 0)) =
          ((0, 0, a.length) : Nat × Nat × Nat) := by
      dsimp only
      rw [hml00, if_pos (by simpa using hn)]
    rw [hstep0, hinner0]
  rw [hfirst]
  apply foldl_fix
  intro i hi
  apply foldl_fix
  intro j hj
  dsimp only
  rw [if_neg (by have := hml i j; omega)]

theorem matchingBlocksFuel_left_nil (a b : List String) :
    ∀ (fuel alo blo bhi : Nat), matchingBlocksFuel a b fuel alo alo blo bhi = [] := by
  intro fuel alo blo bhi
  cases fuel with
  | zero => rfl
  | succ fuel =>
    have hbm : bestMatch a b alo alo blo bhi = (alo, blo, 0) := by
      simp [bestMatch]
    simp only [matchingBlocksFuel, hbm]
    simp

theorem blocksChain_weaken {lo1 lo2 hi1 hi2 : Nat} :
    ∀ {L : List (Nat × Nat × Nat)} {lo1' lo2' : Nat},
      blocksChain lo1' lo2' hi1 hi2 L → lo1 ≤ lo1' → lo2 ≤ lo2' →
      blocksChain lo1 lo2 hi1 hi2 L := by
  intro L
  cases L with
  | nil => intro _ _ _ _ _; trivial
  | cons blk rest =>
    intro lo1' lo2' h h1 h2
    obtain ⟨ai, bj, k⟩ := blk
    obtain ⟨ha, hb, hk1, hk2, hrest⟩ := h
    exact ⟨Nat.le_trans h1 ha, Nat.le_trans h2 hb, hk1, hk2, hrest⟩

theorem blocksChain_append {hi1 hi2 : Nat} :
    ∀ (L1 : List (Nat × Nat × Nat)) {L2 : List (Nat × Nat × Nat)}
      {lo1 lo2 mid1 mid2 : Nat},
      blocksChain lo1 lo2 mid1 mid2 L1 → blocksChain mid1 mid2 hi1 hi2 L2 →
      lo1 ≤ mid1 → lo2 ≤ mid2 → mid1 ≤ hi1 → mid2 ≤ hi2 →
      blocksChain lo1 lo2 hi1 hi2 (L1 ++ L2) := by
  intro L1
  induction L1 with
  | nil =>
    intro L2 lo1 lo2 mid1 mid2 _ h2 hm1 hm2 _ _
    rw [List.nil_append]
    exact blocksChain_weaken h2 hm1 hm2
  | cons blk rest ih =>
    intro L2 lo1 lo2 mid1 mid2 h1 h2 hm1 hm2 hh1 hh2
    obtain ⟨ai, bj, k⟩ := blk
    obtain ⟨ha, hb, hk1, hk2, hrest⟩ := h1
    exact ⟨ha, hb, Nat.le_trans hk1 hh1, Nat.le_trans hk2 hh2,
      ih hrest h2 hk1 hk2 hh1 hh2⟩

theorem matchingBlocksFuel_spec (a b : List String) :
    ∀ (fuel alo ahi blo bhi : Nat), alo ≤ ahi → blo ≤ bhi →
      blocksChain alo blo ahi bhi (matchingBlocksFuel a b fuel alo ahi blo bhi) ∧
      ∀ blk ∈ matchingBlocksFuel a b fuel alo ahi blo bhi, blockOk a b blk := by
  intro fuel
  induction fuel with
  | zero =>
    intro alo ahi blo bhi _ _
    exact ⟨trivial, by intro blk h; simp [matchingBlocksFuel] at h⟩
  | succ fuel ih =>
    intro alo ahi blo bhi ha hb
    obtain ⟨hm1, hm2, hm3, hm4, hmok⟩ := bestMatch_spec a b alo ahi blo bhi ha hb
    by_cases hz : (bestMatch a b alo ahi blo bhi).2.2 = 0
    · simp only [matchingBlocksFuel, hz, if_pos rfl]
      refine ⟨trivial, ?_⟩
      intro blk h
      simp at h
    · simp only [matchingBlocksFuel, if_neg hz]
      obtain ⟨hc1, ho1⟩ := ih alo (bestMatch a b alo ahi blo bhi).1 blo
        (bestMatch a b alo ahi blo bhi).2.1 hm1 hm2
      obtain ⟨hc2, ho2⟩ := ih ((bestMatch a b alo ahi blo bhi).1 +
          (bestMatch a b alo ahi blo bhi).2.2) ahi
        ((bestMatch a b alo ahi blo bhi).2.1 + (bestMatch a b alo ahi blo bhi).2.2) bhi
        hm3 hm4
      constructor
      · refine blocksChain_append _ hc1 ?_ hm1 hm2
          (by omega) (by omega)
        exact ⟨Nat.le_refl _, Nat.le_refl _, hm3, hm4, hc2⟩
      · intro blk h
        rcases List.mem_append.mp h with h | h
        · exact ho1 blk h
        · rcases List.mem_cons.mp h with h | h
          · rw [h]
            exact hmok
          · exact ho2 blk h

theorem mergeBlocks_spec (a b : List String) :
    ∀ (L : List (Nat × Nat × Nat)) (i1 j1 k1 hi1 hi2 : Nat),
      blocksChain (i1 + k1) (j1 + k1) hi1 hi2 L →
      (∀ blk ∈ L, blockOk a b blk) →
      blockOk a b (i1, j1, k1) →
      i1 + k1 ≤ hi1 → j1 + k1 ≤ hi2 →
      blocksChain i1 j1 hi1 hi2 (mergeBlocks L (i1, j1, k1)) ∧
      ∀ blk ∈ mergeBlocks L (i1, j1, k1), blockOk a b blk := by
  intro L
  induction L with
  | nil =>
    intro i1 j1 k1 hi1 hi2 _ _ hok h1 h2
    simp only [mergeBlocks]
    by_cases hk : k1 ≠ 0
    · rw [if_pos hk]
      refine ⟨⟨Nat.le_refl _, Nat.le_refl _, h1, h2, trivial⟩, ?_⟩
      intro blk hb
      simp only [List.mem_singleton] at hb
      rw [hb]
      exact hok
    · rw [if_neg hk]
      exact ⟨trivial, by intro blk hb; simp at hb⟩
  | cons blk2 rest ih =>
    intro i1 j1 k1 hi1 hi2 hchain hall hok h1 h2
    obtain ⟨i2, j2, k2⟩ := blk2
    obtain ⟨ha2, hb2, hk21, hk22, hrest⟩ := hchain
    simp only [mergeBlocks]
    by_cases hm : i1 + k1 = i2 ∧ j1 + k1 = j2
    · rw [if_pos (by simp [hm.1, hm.2])]
      have hokm : blockOk a b (i1, j1, k1 + k2) := by
        have hok2 : blockOk a b (i2, j2, k2) := hall _ (by simp)
        simp only [blockOk] at hok hok2 ⊢
        rw [List.take_add, List.take_add]
        have hda : (a.drop i1).drop k1 = a.drop i2 := by
          rw [List.drop_drop]
          congr 1
          omega
        have hdb : (b.drop j1).drop k1 = b.drop j2 := by
          rw [List.drop_drop]
          congr 1
          omega
        rw [hda, hdb, hok, hok2]
      have hchain2 : blocksChain (i1 + (k1 + k2)) (j1 + (k1 + k2)) hi1 hi2 rest := by
        rw [show i1 + (k1 + k2) = i2 + k2 from by omega,
          show j1 + (k1 + k2) = j2 + k2 from by omega]
        exact hrest
      exact ih i1 j1 (k1 + k2) hi1 hi2 hchain2
        (fun blk hb => hall blk (List.mem_cons_of_mem _ hb)) hokm
        (by omega) (by omega)
    · rw [if_neg (fun hh => hm (by simpa using hh))]
      obtain ⟨hchain2, hall2⟩ := ih i2 j2 k2 hi1 hi2 hrest
        (fun blk hb => hall blk (List.mem_cons_of_mem _ hb)) (hall _ (by simp))
        hk21 hk22
      by_cases hk1 : k1 ≠ 0
      · rw [if_pos hk1]
        refine ⟨⟨Nat.le_refl _, Nat.le_refl _, by omega, by omega, ?_⟩, ?_⟩
        · exact blocksChain_weaken hchain2 ha2 hb2
        · intro blk hb
          rcases List.mem_append.mp hb with hb | hb
          · simp only [List.mem_singleton] at hb
            rw [hb]
            exact hok
          · exact hall2 blk hb
      · rw [if_neg hk1]
        rw [List.nil_append]
        refine ⟨blocksChain_weaken hchain2 (by omega) (by omega), hall2⟩

theorem getMatchingBlocks_spec (a b : List String) :
    blocksChain 0 0 a.length b.length (getMatchingBlocks a b) ∧
    ∀ blk ∈ getMatchingBlocks a b, blockOk a b blk := by
  obtain ⟨hc, ho⟩ := matchingBlocksFuel_spec a b (a.length + b.length + 1)
    0 a.length 0 b.length (Nat.zero_le _) (Nat.zero_le _)
  obtain ⟨hc2, ho2⟩ := mergeBlocks_spec a b
    (matchingBlocksFuel a b (a.length + b.length + 1) 0 a.length 0 b.length)
    0 0 0 a.length b.length (by simpa using hc) ho (by simp [blockOk])
    (by simp) (by simp)
  simp only [getMatchingBlocks]
  constructor
  · refine blocksChain_append _ hc2 ?_ (Nat.zero_le _) (Nat.zero_le _)
      (Nat.le_refl _) (Nat.le_refl _)
    exact ⟨Nat.le_refl _, Nat.le_refl _, by simp, by simp, trivial⟩
  · intro blk h
    rcases List.mem_append.mp h with h | h
    · exact ho2 blk h
    · simp only [List.mem_singleton] at h
      rw [h]
      simp [blockOk]

theorem opGo_nil :
    ∀ (blocks : List (Nat × Nat × Nat)) (i j hi1 hi2 : Nat),
      blocksChain i j hi1 hi2 blocks → opGo i j blocks = [] →
      ∀ blk ∈ blocks, blk = (i, j, 0) := by
  intro blocks
  induction blocks with
  | nil =>
    intro i j hi1 hi2 _ _ blk h
    simp at h
  | cons blk0 rest ih =>
    intro i j hi1 hi2 hchain hop blk h
    obtain ⟨ai, bj, k⟩ := blk0
    obtain ⟨hai, hbj, hk1, hk2, hrest⟩ := hchain
    simp only [opGo] at hop
    have h1 : ¬ i < ai := by
      intro h1
      by_cases h2 : j < bj
      · rw [if_pos (by simp [h1, h2])] at hop
        simp at hop
      · rw [if_neg (by simp [h2]), if_pos h1] at hop
        simp at hop
    have h2 : ¬ j < bj := by
      intro h2
      rw [if_neg (by simp [h1]), if_neg h1, if_pos h2] at hop
      simp at hop
    have heai : ai = i := by omega
    have hebj : bj = j := by omega
    subst heai
    subst hebj
    rw [if_neg (by simp), if_neg (by omega), if_neg (by omega),
      List.nil_append] at hop
    have hek : k = 0 := by
      by_cases hk : k ≠ 0
      · rw [if_pos hk] at hop
        simp at hop
      · omega
    subst hek
    rw [if_neg (by simp), List.nil_append] at hop
    simp only [Nat.add_zero] at hop hrest
    rcases List.mem_cons.mp h with h | h
    · exact h
    · exact ih ai bj hi1 hi2 hrest hop blk h

theorem opGo_single_equal :
    ∀ (blocks : List (Nat × Nat × Nat)) (i j hi1 hi2 : Nat) (e : Opcode),
      blocksChain i j hi1 hi2 blocks → opGo i j blocks = [e] → e.tag = Tag.equal →
      ∃ k pre post, k ≠ 0 ∧ e.a1 = i ∧ e.b1 = j ∧ e.a2 = i + k ∧ e.b2 = j + k ∧
        blocks = pre ++ (i, j, k) :: post ∧
        (∀ blk ∈ pre, blk = (i, j, 0)) ∧ (∀ blk ∈ post, blk = (i + k, j + k, 0)) := by
  intro blocks
  induction blocks with
  | nil =>
    intro i j hi1 hi2 e _ hop _
    simp [opGo] at hop
  | cons blk0 rest ih =>
    intro i j hi1 hi2 e hchain hop htag
    obtain ⟨ai, bj, k0⟩ := blk0
    obtain ⟨hai, hbj, hk1, hk2, hrest⟩ := hchain
    simp only [opGo] at hop
    have h1 : ¬ i < ai := by
      intro h1
      by_cases h2 : j < bj
      · rw [if_pos (by simp [h1, h2])] at hop
        simp only [List.cons_append, List.singleton_append] at hop
        obtain ⟨he, -⟩ := List.cons_eq_cons.mp hop
        rw [← he] at htag
        simp at htag
      · rw [if_neg (by simp [h2]), if_pos h1] at hop
        simp only [List.cons_append, List.singleton_append] at hop
        obtain ⟨he, -⟩ := List.cons_eq_cons.mp hop
        rw [← he] at htag
        simp at htag
    have h2 : ¬ j < bj := by
      intro h2
      rw [if_neg (by simp [h1]), if_neg h1, if_pos h2] at hop
      simp only [List.cons_append, List.singleton_append] at hop
      obtain ⟨he, -⟩ := List.cons_eq_cons.mp hop
      rw [← he] at htag
      simp at htag
    have heai : ai = i := by omega
    have hebj : bj = j := by omega
    subst heai
    subst hebj
    rw [if_neg (by simp), if_neg (by omega), if_neg (by omega),
      List.nil_append] at hop
    by_cases hk : k0 ≠ 0
    · rw [if_pos hk] at hop
      simp only [List.cons_append, List.singleton_append] at hop
      obtain ⟨he, hrec⟩ := List.cons_eq_cons.mp hop
      have hpost := opGo_nil rest (ai + k0) (bj + k0) hi1 hi2 hrest hrec
      refine ⟨k0, [], rest, hk, ?_, ?_, ?_, ?_, by simp, by simp, hpost⟩
      · rw [← he]
      · rw [← he]
      · rw [← he]
      · rw [← he]
    · have hk0 : k0 = 0 := by omega
      subst hk0
      rw [if_neg (by simp), List.nil_append] at hop
      simp only [Nat.add_zero] at hop hrest
      obtain ⟨k, pre, post, hkne, he1, he2, he3, he4, hdec, hpre, hpost⟩ :=
        ih ai bj hi1 hi2 e hrest hop htag
      refine ⟨k, (ai, bj, 0) :: pre, post, hkne, he1, he2, he3, he4, ?_, ?_, hpost⟩
      · rw [hdec, List.cons_append]
      · intro blk hb
        rcases List.mem_cons.mp hb with hb | hb
        · exact hb
        · exact hpre blk hb

/-! ## The two directions of diff emptiness -/

theorem getMatchingBlocks_self (a : List String) (hne : a ≠ []) :
    getMatchingBlocks a a = [(0, 0, a.length), (a.length, a.length, 0)] := by
  have hn : 0 < a.length := List.length_pos.mpr hne
  have hmb : matchingBlocksFuel a a (a.length + a.length + 1) 0 a.length 0 a.length =
      [(0, 0, a.length)] := by
    simp only [matchingBlocksFuel]
    rw [bestMatch_self a hne]
    simp only
    rw [if_neg (by omega)]
    simp only [Nat.zero_add]
    rw [matchingBlocksFuel_left_nil]
    simp
    exact matchingBlocksFuel_left_nil a a _ _ _ _
  simp only [getMatchingBlocks, hmb]
  simp only [mergeBlocks]
  rw [if_pos (by simp)]
  simp only [mergeBlocks, Nat.zero_add]
  rw [if_pos (by omega)]
  simp

theorem getOpcodes_self (a : List String) (hne : a ≠ []) :
    getOpcodes a a = [⟨Tag.equal, 0, a.length, 0, a.length⟩] := by
  have hn : 0 < a.length := List.length_pos.mpr hne
  have hne0 : a.length ≠ 0 := by omega
  simp [getOpcodes, getMatchingBlocks_self a hne, opGo, hne0]

theorem trims_single_equal (n : Nat) (c : Opcode) (hc : c.tag = Tag.equal) :
    ∃ d : Opcode, trimLast n (trimHead n [c]) = [d] ∧ d.tag = Tag.equal ∧
      d.a2 - d.a1 ≤ n := by
  simp only [trimHead]
  rw [if_pos hc]
  simp only [trimLast, List.getLast?_singleton]
  rw [if_pos hc]
  simp only [List.dropLast_single, List.nil_append]
  refine ⟨_, rfl, hc, ?_⟩
  simp only
  omega

theorem groupGo_single_equal_nil (n : Nat) (c : Opcode) (hc : c.tag = Tag.equal)
    (hgap : ¬(2 * n < c.a2 - c.a1)) : groupGo n [c] [] = [] := by
  simp only [groupGo]
  rw [if_neg (by simp [hgap])]
  simp only [List.nil_append, groupGo]
  rw [if_neg (by simp [hc])]

theorem unifiedDiff_self (a : List String) (f t : String) :
    unifiedDiff a a f t = "" := by
  cases a with
  | nil => rfl
  | cons x xs =>
    have hne : (x :: xs) ≠ ([] : List String) := by simp
    have hcodes := getOpcodes_self (x :: xs) hne
    have hgo : groupedOpcodes 3 (x :: xs) (x :: xs) = [] := by
      obtain ⟨d, hd, hdt, hdle⟩ := trims_single_equal 3
        ⟨Tag.equal, 0, (x :: xs).length, 0, (x :: xs).length⟩ rfl
      simp only [groupedOpcodes, hcodes]
      show groupGo 3 (trimLast 3 (trimHead 3
        [⟨Tag.equal, 0, (x :: xs).length, 0, (x :: xs).length⟩])) [] = []
      rw [hd]
      exact groupGo_single_equal_nil 3 d hdt (by omega)
    simp only [unifiedDiff, hgo]

theorem groupGo_empty (n : Nat) :
    ∀ (cs group : List Opcode), groupGo n cs group = [] →
      group ++ cs = [] ∨ ∃ c, group ++ cs = [c] ∧ c.tag = Tag.equal := by
  intro cs
  induction cs with
  | nil =>
    intro group h
    simp only [groupGo] at h
    by_cases hg : group.isEmpty
    · left
      rw [List.isEmpty_eq_true] at hg
      rw [hg]
      rfl
    · right
      have hgf : group.isEmpty = false := by
        cases hge : group.isEmpty with
        | false => rfl
        | true => exact absurd hge hg
      by_cases hinner : group.length = 1 ∧
          (group.headD ⟨Tag.equal, 0, 0, 0, 0⟩).tag = Tag.equal
      · obtain ⟨c, hcg⟩ := List.length_eq_one.mp hinner.1
        refine ⟨c, by rw [hcg, List.append_nil], ?_⟩
        have := hinner.2
        rw [hcg] at this
        simpa using this
      · exfalso
        rw [if_pos ?_] at h
        · simp at h
        · simp only [hgf, Bool.not_false, Bool.true_and, Bool.not_eq_true',
            Bool.and_eq_false_iff]
          simp only [decide_eq_false_iff_not]
          by_cases hl : group.length = 1
          · right
            intro ht
            exact hinner ⟨hl, ht⟩
          · left
            exact hl
  | cons c rest ih =>
    intro group h
    simp only [groupGo] at h
    by_cases hcond : (decide (c.tag = Tag.equal) && decide (2 * n < c.a2 - c.a1)) = true
    · rw [if_pos hcond] at h
      simp at h
    · rw [if_neg hcond] at h
      rcases ih (group ++ [c]) h with h2 | ⟨c2, hc1, ht⟩
      · simp at h2
      · right
        refine ⟨c2, ?_, ht⟩
        rw [← hc1, List.append_assoc, List.singleton_append]

theorem trimHead_nil {n : Nat} {codes : List Opcode} (h : trimHead n codes = []) :
    codes = [] := by
  cases codes with
  | nil => rfl
  | cons c rest =>
    simp only [trimHead] at h
    by_cases hc : c.tag = Tag.equal
    · rw [if_pos hc] at h
      simp at h
    · rw [if_neg hc] at h
      simp at h

theorem trimHead_singleton {n : Nat} {codes : List Opcode} {c : Opcode}
    (h : trimHead n codes = [c]) (htag : c.tag = Tag.equal) :
    ∃ d, codes = [d] ∧ d.tag = Tag.equal := by
  cases codes with
  | nil => simp [trimHead] at h
  | cons d rest =>
    simp only [trimHead] at h
    by_cases hd : d.tag = Tag.equal
    · rw [if_pos hd] at h
      obtain ⟨-, hrest⟩ := List.cons_eq_cons.mp h
      exact ⟨d, by rw [hrest], hd⟩
    · rw [if_neg hd] at h
      obtain ⟨he, hrest⟩ := List.cons_eq_cons.mp h
      exact ⟨d, by rw [hrest], by rw [he]; exact htag⟩

theorem trimLast_nil {n : Nat} {codes : List Opcode} (h : trimLast n codes = []) :
    codes = [] := by
  cases hl : codes.getLast? with
  | none => exact List.getLast?_eq_none_iff.mp hl
  | some c0 =>
    simp only [trimLast, hl] at h
    by_cases hc : c0.tag = Tag.equal
    · rw [if_pos hc] at h
      simp at h
    · rw [if_neg hc] at h
      exact h

theorem trimLast_singleton {n : Nat} {codes : List Opcode} {c : Opcode}
    (h : trimLast n codes = [c]) (htag : c.tag = Tag.equal) :
    ∃ d, codes = [d] ∧ d.tag = Tag.equal := by
  cases codes with
  | nil => simp [trimLast] at h
  | cons y ys =>
    cases ys with
    | nil =>
      simp only [trimLast, List.getLast?_singleton] at h
      by_cases hy : y.tag = Tag.equal
      · exact ⟨y, rfl, hy⟩
      · rw [if_neg hy] at h
        obtain ⟨he, -⟩ := List.cons_eq_cons.mp h
        exact ⟨y, rfl, by rw [he]; exact htag⟩
    | cons z zs =>
      exfalso
      cases hl : (y :: z :: zs).getLast? with
      | none => simp at hl
      | some c0 =>
        simp only [trimLast, hl] at h
        by_cases hc : c0.tag = Tag.equal
        · rw [if_pos hc] at h
          have hlen := congrArg List.length h
          simp [List.length_dropLast] at hlen
        · rw [if_neg hc] at h
          have hlen := congrArg List.length h
          simp at hlen

theorem getOpcodes_nil_imp (a b : List String) (h : getOpcodes a b = []) :
    a = [] ∧ b = [] := by
  obtain ⟨hchain, -⟩ := getMatchingBlocks_spec a b
  have hall := opGo_nil (getMatchingBlocks a b) 0 0 a.length b.length hchain h
  have hsent : (a.length, b.length, (0 : Nat)) ∈ getMatchingBlocks a b := by
    simp [getMatchingBlocks]
  have hs := hall _ hsent
  simp only [Prod.mk.injEq] at hs
  exact ⟨List.length_eq_zero.mp hs.1, List.length_eq_zero.mp hs.2.1⟩

theorem getOpcodes_single_equal_imp (a b : List String) (e : Opcode)
    (h : getOpcodes a b = [e]) (htag : e.tag = Tag.equal) : a = b := by
  obtain ⟨hchain, hok⟩ := getMatchingBlocks_spec a b
  obtain ⟨k, pre, post, hk, he1, he2, he3, he4, hdec, hpre, hpost⟩ :=
    opGo_single_equal (getMatchingBlocks a b) 0 0 a.length b.length e hchain h htag
  have hbl : blockOk a b (0, 0, k) := hok _ (by rw [hdec]; simp)
  simp only [blockOk, List.drop_zero] at hbl
  have hs3 : (a.length, b.length, (0 : Nat)) ∈ getMatchingBlocks a b := by
    simp [getMatchingBlocks]
  rw [hdec] at hs3
  rcases List.mem_append.mp hs3 with hs | hs
  · have hz := hpre _ hs
    simp only [Prod.mk.injEq] at hz
    rw [List.length_eq_zero.mp hz.1, List.length_eq_zero.mp hz.2.1]
  · rcases List.mem_cons.mp hs with hs | hs
    · simp only [Prod.mk.injEq] at hs
      exact absurd hs.2.2.symm hk
    · have hz := hpost _ hs
      simp only [Prod.mk.injEq, Nat.zero_add] at hz
      have hta : a.take k = a := by
        rw [← hz.1]
        exact List.take_length a
      have htb : b.take k = b := by
        rw [← hz.2.1]
        exact List.take_length b
      rw [← hta, ← htb, hbl]

theorem unifiedDiff_empty_imp (a b : List String) (f t : String)
    (h : unifiedDiff a b f t = "") : a = b := by
  have hg : groupedOpcodes 3 a b = [] := by
    cases hgr : groupedOpcodes 3 a b with
    | nil => rfl
    | cons g gs =>
      exfalso
      simp only [unifiedDiff, hgr] at h
      have hlen := congrArg String.length h
      rw [String.length_append, String.length_append, String.length_append] at hlen
      have h4 : ("--- " : String).length = 4 := rfl
      have h42 : ("+++ " : String).length = 4 := rfl
      have h0 : ("" : String).length = 0 := rfl
      omega
  simp only [groupedOpcodes] at hg
  rcases groupGo_empty 3 _ [] hg with h0 | ⟨c, hc1, hc2⟩
  · rw [List.nil_append] at h0
    have hth := trimHead_nil (trimLast_nil h0)
    by_cases he : (getOpcodes a b).isEmpty
    · rw [if_pos he] at hth
      simp at hth
    · rw [if_neg he] at hth
      rw [hth] at he
      simp at he
  · rw [List.nil_append] at hc1
    obtain ⟨d, hd1, hd2⟩ := trimLast_singleton hc1 hc2
    obtain ⟨d2, hdd1, hdd2⟩ := trimHead_singleton hd1 hd2
    by_cases he : (getOpcodes a b).isEmpty
    · have hemp : getOpcodes a b = [] := by
        rw [List.isEmpty_eq_true] at he
        exact he
      obtain ⟨ha, hb⟩ := getOpcodes_nil_imp a b hemp
      rw [ha, hb]
    · rw [if_neg he] at hdd1
      exact getOpcodes_single_equal_imp a b d2 hdd1 hdd2

/-! ## Reading back: `readlines` flattens to the read text -/

theorem readLinesGo_flatten :
    ∀ (cs acc : List Char),
      ((readLinesGo cs acc).map String.toList).flatten = acc.reverse ++ cs := by
  intro cs
  induction cs with
  | nil =>
    intro acc
    simp only [readLinesGo]
    by_cases hacc : acc.isEmpty
    · rw [if_pos hacc]
      rw [List.isEmpty_eq_true] at hacc
      subst hacc
      rfl
    · rw [if_neg hacc]
      simp only [List.map_cons, List.map_nil, List.flatten_cons, List.flatten_nil]
      rfl
  | cons c rest ih =>
    intro acc
    simp only [readLinesGo]
    by_cases hc : c = '\n'
    · subst hc
      rw [if_pos rfl]
      simp only [List.map_cons, List.flatten_cons, ih]
      show ('\n' :: acc).reverse ++ ([].reverse ++ rest) = acc.reverse ++ '\n' :: rest
      simp
    · rw [if_neg hc]
      rw [ih (c :: acc)]
      simp

theorem readLines_toList (s : String) :
    (String.join (readLines s)).toList = s.toList := by
  rw [stringJoin_toList, readLines, readLinesGo_flatten]
  rfl

theorem readLines_inj {s1 s2 : String} (h : readLines s1 = readLines s2) :
    s1 = s2 := by
  have h1 := readLines_toList s1
  have h2 := readLines_toList s2
  rw [h] at h1
  have hl : s1.toList = s2.toList := by rw [← h1, ← h2]
  cases s1
  cases s2
  exact congrArg String.mk hl

/-! ## The freshest snapshot after an update -/

theorem latestSnap_append_max (L : List (Nat × String)) (t : Nat) (r : String)
    (h : ∀ p ∈ L, p.1 ≤ t) : latestSnap (L ++ [(t, r)]) = some (t, r) := by
  simp only [latestSnap, List.foldl_append]
  have hinv : ∀ q, (List.foldl (fun best p => match best with
      | none => some p
      | some q => if q.1 ≤ p.1 then some p else some q)
        none L) = some q → q.1 ≤ t := by
    intro q hq
    have hi := foldl_inv
      (fun (best : Option (Nat × String)) => ∀ q2, best = some q2 → q2.1 ≤ t)
      (fun best p => match best with
        | none => some p
        | some q => if q.1 ≤ p.1 then some p else some q)
      L none (by intro q2 hq2; simp at hq2) ?_
    · exact hi q hq
    · intro p hp best hbest q2 hq2
      dsimp only at hq2
      cases best with
      | none =>
        simp only [Option.some.injEq] at hq2
        rw [← hq2]
        exact h p hp
      | some q3 =>
        have hq2x : (if q3.1 ≤ p.1 then some p else some q3) = some q2 := hq2
        by_cases hle : q3.1 ≤ p.1
        · rw [if_pos hle] at hq2x
          simp only [Option.some.injEq] at hq2x
          rw [← hq2x]
          exact h p hp
        · rw [if_neg hle] at hq2x
          simp only [Option.some.injEq] at hq2x
          rw [← hq2x]
          exact hbest q3 rfl
  rw [List.foldl_cons, List.foldl_nil]
  cases hb : List.foldl (fun best p => match best with
      | none => some p
      | some q => if q.1 ≤ p.1 then some p else some q)
      none L with
  | none => rfl
  | some q =>
    have hq := hinv q hb
    show (if q.1 ≤ t then some (t, r) else some q) = some (t, r)
    rw [if_pos hq]

theorem latestSnap_snapInsert (snaps : List (Nat × String)) (t : Nat) (r : String)
    (h : ∀ p ∈ snaps, p.1 < t) : latestSnap (snapInsert t r snaps) = some (t, r) := by
  simp only [snapInsert]
  apply latestSnap_append_max
  intro p hp
  exact Nat.le_of_lt (h p (List.mem_filter.mp hp).1)

/-! ## C7: the diff after a successful update -/

/-- C7 counterexample: replacing a section with text identical to the
existing one is a successful `update_section`, yet the subsequent
`view_changes` produces the empty diff, which is not a non-empty diff
containing the old and new section text. -/
theorem C7_counterexample_identical_update :
    (update_knowledge_section ⟨some "# A\nx\n", [], 0⟩ "1" "A" "# A\nx").2 =
        UpdateOutcome.updated "# A\nx\n" ∧
      view_doc_changes
        (update_knowledge_section ⟨some "# A\nx\n", [], 0⟩ "1" "A" "# A\nx").1 =
        ViewOutcome.diff "" := by decide

/-- C7 (amended): after any successful `update_section` (APPEND or
dotted id) on an existing document whose snapshot names are all older
than the current timestamp, `view_changes` diffs the pre-mutation
content (captured in the snapshot the update wrote) against the current
content, and that diff is the empty string if and only if the re-read
current content equals the re-read pre-mutation content; the diff is
non-empty precisely when the update changed the stored bytes as read
back. -/
theorem C7_view_after_update_diff_iff_changed
    (fs : DocFS) (raw : String) (nodeId expected newContent : String)
    (hfile : fs.file = some raw)
    (hsnaps : ∀ p ∈ fs.snaps, p.1 < fs.now)
    (hsucc : (update_knowledge_section fs nodeId expected newContent).2 =
        UpdateOutcome.appended ∨
      ∃ fc, (update_knowledge_section fs nodeId expected newContent).2 =
        UpdateOutcome.updated fc) :
    ∃ raw2,
      (update_knowledge_section fs nodeId expected newContent).1.file = some raw2 ∧
      view_doc_changes (update_knowledge_section fs nodeId expected newContent).1 =
        ViewOutcome.diff (unifiedDiff (readLines (pyReadText raw))
          (readLines (pyReadText raw2))
          ("snapshot(" ++ toString fs.now ++ ".snap)") "current") ∧
      (unifiedDiff (readLines (pyReadText raw)) (readLines (pyReadText raw2))
          ("snapshot(" ++ toString fs.now ++ ".snap)") "current" = "" ↔
        pyReadText raw2 = pyReadText raw) := by
  have hiff : ∀ raw2,
      (unifiedDiff (readLines (pyReadText raw)) (readLines (pyReadText raw2))
          ("snapshot(" ++ toString fs.now ++ ".snap)") "current" = "" ↔
        pyReadText raw2 = pyReadText raw) := by
    intro raw2
    constructor
    · intro hd
      exact (readLines_inj (unifiedDiff_empty_imp _ _ _ _ hd)).symm
    · intro he
      rw [he]
      exact unifiedDiff_self _ _ _
  have hview : ∀ raw2,
      view_doc_changes ⟨some raw2, snapInsert fs.now raw fs.snaps, fs.now⟩ =
        ViewOutcome.diff (unifiedDiff (readLines (pyReadText raw))
          (readLines (pyReadText raw2))
          ("snapshot(" ++ toString fs.now ++ ".snap)") "current") := by
    intro raw2
    simp only [view_doc_changes, latestSnap_snapInsert fs.snaps fs.now raw hsnaps]
  simp only [update_knowledge_section, hfile] at hsucc ⊢
  by_cases happ : nodeId = "APPEND"
  · rw [if_pos happ] at hsucc ⊢
    exact ⟨raw ++ "\n\n" ++ newContent, rfl, hview _, hiff _⟩
  · rw [if_neg happ] at hsucc ⊢
    cases hedit : sectionEdit (pyReadText raw) nodeId expected newContent with
    | lockMismatch a b c =>
      rw [hedit] at hsucc
      rcases hsucc with hsucc | ⟨fc, hsucc⟩ <;> simp at hsucc
    | sectionNotFound a =>
      rw [hedit] at hsucc
      rcases hsucc with hsucc | ⟨fc, hsucc⟩ <;> simp at hsucc
    | updated fc =>
      exact ⟨fc, rfl, hview _, hiff _⟩

theorem C7_view_after_update_diff_iff_changed_witness :
    (((⟨some "# A\nx\n", [(0, "old")], 1⟩ : DocFS).file = some "# A\nx\n") ∧
      (∀ p ∈ ((⟨some "# A\nx\n", [(0, "old")], 1⟩ : DocFS)).snaps,
        p.1 < ((⟨some "# A\nx\n", [(0, "old")], 1⟩ : DocFS)).now) ∧
      ((update_knowledge_section ⟨some "# A\nx\n", [(0, "old")], 1⟩
          "APPEND" "" "tail").2 = UpdateOutcome.appended ∨
        ∃ fc, (update_knowledge_section ⟨some "# A\nx\n", [(0, "old")], 1⟩
          "APPEND" "" "tail").2 = UpdateOutcome.updated fc)) ∧
    (∃ raw2,
      (update_knowledge_section ⟨some "# A\nx\n", [(0, "old")], 1⟩
          "APPEND" "" "tail").1.file = some raw2 ∧
      view_doc_changes (update_knowledge_section ⟨some "# A\nx\n", [(0, "old")], 1⟩
          "APPEND" "" "tail").1 =
        ViewOutcome.diff (unifiedDiff (readLines (pyReadText "# A\nx\n"))
          (readLines (pyReadText raw2))
          ("snapshot(" ++ toString (1 : Nat) ++ ".snap)") "current") ∧
      (unifiedDiff (readLines (pyReadText "# A\nx\n")) (readLines (pyReadText raw2))
          ("snapshot(" ++ toString (1 : Nat) ++ ".snap)") "current" = "" ↔
        pyReadText raw2 = pyReadText "# A\nx\n")) :=
  ⟨⟨rfl, by decide, Or.inl (by decide)⟩,
    C7_view_after_update_diff_iff_changed ⟨some "# A\nx\n", [(0, "old")], 1⟩
      "# A\nx\n" "APPEND" "" "tail" rfl (by decide) (Or.inl (by decide))⟩

end DocMCP
